import Mathlib

/-!
# Verification of the OcTreeBase engine

A shallow embedding of the octomap `OcTreeBase<NODE>` tree engine
(`src/octomap/OcTreeBase.h`).  The header in the repository declares the
interface and documents each operation; the algorithm bodies live in
`OcTreeBase.hxx`, which is not part of the repository snapshot, so every
operation body below is modelled from the specification's description of it.
Coordinates are modelled as exact rationals (the spec's contracts are stated
as exact arithmetic; the header's `double`s only approximate them), keys as
integers with the 16-bit range checked explicitly.
-/

set_option allowUnsafeReducibility true

attribute [semireducible] Rat.add Rat.sub Rat.mul Rat.inv

namespace Octomap

/-- A triple of per-axis components (used for points, keys and DDA state). -/
structure V3 (α : Type) where
  x : α
  y : α
  z : α
deriving DecidableEq, Repr

/-- A 3d point with rational coordinates (models `point3d`). -/
abbrev Q3 := V3 ℚ

/-- A triple of per-axis discrete keys (models `unsigned short int key[3]`,
kept as integers with the 16-bit range checked explicitly). -/
abbrev K3 := V3 ℤ

/-- Fixed tree depth `D` (the header: "maximum depth of 16"). -/
def treeDepth : ℕ := 16

/-- `tree_max_val = 2^(D-1)`: key value of the center offset. -/
def treeMaxVal : ℤ := 32768

/-- Upper bound of the key range: `2^D`. -/
def keyUpper : ℤ := 65536

/-- Modelled from the spec: `genKey(value, resolution, D) -> Key | fail`:
`idx = floor(value/resolution) + 2^(D-1)`; fails if `idx` outside `[0, 2^D)`.
(The body in `OcTreeBase.hxx` is missing from the snapshot.) -/
def genKey (res v : ℚ) : Option ℤ :=
  if 0 ≤ ⌊v / res⌋ + treeMaxVal ∧ ⌊v / res⌋ + treeMaxVal < keyUpper then
    some (⌊v / res⌋ + treeMaxVal)
  else none

/-- Modelled from the spec: `genKeys(point)` applies `genKey` per axis and
fails if any axis fails. -/
def genKeys (res : ℚ) (p : Q3) : Option K3 :=
  match genKey res p.x, genKey res p.y, genKey res p.z with
  | some a, some b, some c => some ⟨a, b, c⟩
  | _, _, _ => none

/-- Modelled from the spec: `genVal(key)` maps a key to the center coordinate
of its cell: `(key - 2^(D-1) + 0.5) * resolution`. -/
def genVal (res : ℚ) (k : ℤ) : ℚ := ((k : ℚ) - (treeMaxVal : ℤ) + 1/2) * res

/-- Center coordinate of the cell addressed by a key triple. -/
def keyCenter (res : ℚ) (k : K3) : Q3 :=
  ⟨genVal res k.x, genVal res k.y, genVal res k.z⟩

/-- One key is within the representable range `[0, 2^D)`. -/
def inRangeK (k : ℤ) : Prop := 0 ≤ k ∧ k < keyUpper

instance (k : ℤ) : Decidable (inRangeK k) := by unfold inRangeK; infer_instance

/-- All three keys are within the representable range. -/
def inRange3 (k : K3) : Prop := inRangeK k.x ∧ inRangeK k.y ∧ inRangeK k.z

instance (k : K3) : Decidable (inRange3 k) := by unfold inRange3; infer_instance

/-- Modelled from the spec: `genPos(keys, level)` extracts bit `(D-1-level)` of
each of the 3 keys and packs them into a 3-bit octant index
(x-bit + 2*y-bit + 4*z-bit). -/
def octantAt (k : K3) (level : ℕ) : ℕ :=
  (if k.x.toNat.testBit (15 - level) then 1 else 0) +
  (if k.y.toNat.testBit (15 - level) then 2 else 0) +
  (if k.z.toNat.testBit (15 - level) then 4 else 0)

/-- Root-to-leaf child path of a full-depth key: the octants at levels
`0 .. D-1`. -/
def fullPath (k : K3) : List ℕ := (List.range treeDepth).map (octantAt k)

/-- The node store.  The recursive owned hierarchy is modelled as an arena of
nodes addressed by their root-to-node child path (§9 of the spec explicitly
allows an arena representation).  Each entry carries the node's occupancy
evidence, modelled as a signed observation counter (the concrete occupancy
capability is an external collaborator in the spec; a hit adds +1, a miss
adds -1, positive evidence classifies occupied, non-positive free, an absent
node is unknown). -/
abbrev NodeMap := List (List ℕ × ℤ)

/-- First-match lookup of a node by path. -/
def lookupPath : NodeMap → List ℕ → Option ℤ
  | [], _ => none
  | (p, v) :: rest, q => if p = q then some v else lookupPath rest q

/-- Replace the value at the first entry with the given path, or append a new
entry when the path is absent. -/
def setPath : NodeMap → List ℕ → ℤ → NodeMap
  | [], q, v => [(q, v)]
  | (p, w) :: rest, q, v =>
      if p = q then (q, v) :: rest else (p, w) :: setPath rest q v

/-- Tree-wide state of `OcTreeBase` (header lines 253-265): the node store,
the constants and resolution, the live node count `tree_size`, the cached
metric bounds and the `sizeChanged` dirty flag. -/
structure TreeState where
  resolution : ℚ
  nodes : NodeMap
  tree_size : ℕ
  sizeChanged : Bool
  minValue : Q3
  maxValue : Q3
deriving DecidableEq

/-- State after construction: the root (empty path, no evidence) exists,
`tree_size = 1`. -/
def freshTree (res : ℚ) : TreeState :=
  ⟨res, [([], 0)], 1, true, ⟨0, 0, 0⟩, ⟨0, 0, 0⟩⟩

/-- Modelled from the spec: `ensureChild` discipline — create the node at the
given path if absent (with empty evidence), incrementing `tree_size` and
setting the dirty flag. -/
def ensurePath (s : TreeState) (q : List ℕ) : TreeState :=
  match lookupPath s.nodes q with
  | some _ => s
  | none =>
      { s with nodes := setPath s.nodes q 0, tree_size := s.tree_size + 1,
               sizeChanged := true }

/-- All prefixes of the full-depth path of a key, shortest (the root) first. -/
def keyPrefixes (k : K3) : List (List ℕ) :=
  (List.range (treeDepth + 1)).map (fun i => (fullPath k).take i)

/-- Create every missing node along the root-to-leaf path of a key. -/
def ensureKeyPath (s : TreeState) (k : K3) : TreeState :=
  (keyPrefixes k).foldl ensurePath s

/-- Apply the external occupancy-integration capability at a node: one hit
(+1) or miss (-1) added to the node's evidence counter. -/
def integrateAt (s : TreeState) (q : List ℕ) (occ : Bool) : TreeState :=
  { s with nodes :=
      setPath s.nodes q ((lookupPath s.nodes q).getD 0 + if occ then 1 else -1) }

/-- Modelled from the spec: `updateNode` on an already-quantized key —
descend from the root to depth `D` creating missing nodes along the path,
then integrate the measurement at the terminal (full-depth) node. -/
def updateNodeKey (s : TreeState) (k : K3) (occ : Bool) : TreeState :=
  integrateAt (ensureKeyPath s k) (fullPath k) occ

/-- Modelled from the spec: `updateNode(point, occupied) -> Node | fail`:
quantize (fail if out of bounds, leaving the tree untouched), then update
along the key path; returns the terminal node's evidence. -/
def updateNode (s : TreeState) (p : Q3) (occ : Bool) : Option ℤ × TreeState :=
  match genKeys s.resolution p with
  | none => (none, s)
  | some k =>
      let s' := updateNodeKey s k occ
      (lookupPath s'.nodes (fullPath k), s')

/-- Whether the node at a path has at least one child (octants 0-7). -/
def hasChildAt (m : NodeMap) (q : List ℕ) : Bool :=
  (List.range 8).any (fun j => (lookupPath m (q ++ [j])).isSome)

/-- Modelled from the spec: `search` descent — at each level stop early when
the current node is a leaf above full depth, fail when a required child is
absent, else descend. -/
def searchAux (m : NodeMap) : List ℕ → List ℕ → Option ℤ
  | q, [] => lookupPath m q
  | q, j :: rest =>
      if hasChildAt m q then
        match lookupPath m (q ++ [j]) with
        | some _ => searchAux m (q ++ [j]) rest
        | none => none
      else lookupPath m q

/-- Search for the node of an already-quantized key. -/
def searchKey (s : TreeState) (k : K3) : Option ℤ :=
  searchAux s.nodes [] (fullPath k)

/-- Modelled from the spec: `search(point) -> Node | none`: quantize (fail to
none), then descend.  This never creates nodes. -/
def search (s : TreeState) (p : Q3) : Option ℤ :=
  match genKeys s.resolution p with
  | none => none
  | some k => searchKey s k

/-- Occupancy classification supplied by the external node capability. -/
inductive Occ where
  | occupied
  | free
  | unknown
deriving DecidableEq

/-- Classify a search result: absent node is unknown; positive evidence is
occupied, non-positive is free (the counter model of the capability). -/
def classifyVal : Option ℤ → Occ
  | none => .unknown
  | some v => if 0 < v then .occupied else .free

/-- Evidence currently recorded at the full-depth cell of a key (0 when the
leaf does not exist yet). -/
def evid (s : TreeState) (k : K3) : ℤ := (lookupPath s.nodes (fullPath k)).getD 0

/-- A key's whole root-to-leaf path exists in the node store. -/
def pathComplete (m : NodeMap) (k : K3) : Prop :=
  ∀ i ≤ treeDepth, (lookupPath m ((fullPath k).take i)).isSome

/-- Componentwise difference of two points (the ray direction `end - origin`). -/
def vsub (a b : Q3) : Q3 := ⟨a.x - b.x, a.y - b.y, a.z - b.z⟩

/-- Cursor state of the 3D digital-differential-analyzer traversal: current
cell key, per-axis step direction, per-axis parameter of the next boundary
crossing (`none` for an axis the ray never crosses), and per-axis crossing
increment. -/
structure DDAState where
  cur : K3
  step : K3
  tMax : V3 (Option ℚ)
  tDelta : V3 (Option ℚ)
deriving DecidableEq

/-- Modelled from the spec: one axis of the DDA initialization.  For a zero
direction component the axis never advances; otherwise the step is the
direction sign, the first crossing parameter is the distance to the cell
border ahead divided by the direction component, and the crossing increment
is one cell per unit of direction. -/
def axisInit (res oa : ℚ) (ka : ℤ) (da : ℚ) : ℤ × Option ℚ × Option ℚ :=
  if da = 0 then (0, none, none)
  else
    ((if 0 < da then 1 else -1),
     some (((((ka : ℚ) - ((treeMaxVal : ℤ) : ℚ)) * res
       + (if 0 < da then res else 0)) - oa) / da),
     some (res / |da|))

/-- DDA state at the origin cell of a ray with direction `d`. -/
def ddaInit (res : ℚ) (o : Q3) (ok : K3) (d : Q3) : DDAState :=
  ⟨ok,
   ⟨(axisInit res o.x ok.x d.x).1, (axisInit res o.y ok.y d.y).1,
    (axisInit res o.z ok.z d.z).1⟩,
   ⟨(axisInit res o.x ok.x d.x).2.1, (axisInit res o.y ok.y d.y).2.1,
    (axisInit res o.z ok.z d.z).2.1⟩,
   ⟨(axisInit res o.x ok.x d.x).2.2, (axisInit res o.y ok.y d.y).2.2,
    (axisInit res o.z ok.z d.z).2.2⟩⟩

/-- Minimum of two optional crossing parameters (`none` is infinity). -/
def optMin : Option ℚ → Option ℚ → Option ℚ
  | none, b => b
  | a, none => a
  | some a, some b => some (min a b)

/-- Advance one axis when its crossing parameter attains the minimum `m`:
step the key and push the crossing parameter by the increment. -/
def advAxis (m : ℚ) (c s : ℤ) (tM tD : Option ℚ) : ℤ × Option ℚ :=
  match tM, tD with
  | some t, some dl => if t = m then (c + s, some (t + dl)) else (c, some t)
  | _, _ => (c, tM)

/-- Modelled from the spec: one DDA step — the axis with the smallest
accumulated distance-to-next-boundary advances; ties advance all tied axes
together. -/
def rayStep (st : DDAState) : DDAState :=
  match optMin st.tMax.x (optMin st.tMax.y st.tMax.z) with
  | none => st
  | some m =>
      ⟨⟨(advAxis m st.cur.x st.step.x st.tMax.x st.tDelta.x).1,
        (advAxis m st.cur.y st.step.y st.tMax.y st.tDelta.y).1,
        (advAxis m st.cur.z st.step.z st.tMax.z st.tDelta.z).1⟩,
       st.step,
       ⟨(advAxis m st.cur.x st.step.x st.tMax.x st.tDelta.x).2,
        (advAxis m st.cur.y st.step.y st.tMax.y st.tDelta.y).2,
        (advAxis m st.cur.z st.step.z st.tMax.z st.tDelta.z).2⟩,
       st.tDelta⟩

/-- Step bound for the cursor walk (an upper bound on the number of cells any
in-range ray can traverse; the walk exits as soon as the end cell is
reached). -/
def rayFuel : ℕ := 200000

/-- Modelled from the spec: the DDA cursor walk.  Stops (emitting nothing)
at the cell containing `end`; emits every traversed cell before it, origin's
cell first.  The walk also stops if the cursor were ever to leave the
representable volume (geometrically unreachable for in-range endpoints), and
carries fuel to make the recursion structural. -/
def rayLoop (ek : K3) : ℕ → DDAState → List K3
  | 0, _ => []
  | f + 1, st =>
      if st.cur = ek then []
      else if ¬ inRange3 st.cur then []
      else st.cur :: rayLoop ek f (rayStep st)

/-- The ordered key sequence traversed from origin's cell toward end's cell,
excluding end's cell. -/
def rayKeys (res : ℚ) (o e : Q3) (ok ek : K3) : List K3 :=
  rayLoop ek rayFuel (ddaInit res o ok (vsub e o))

/-- Modelled from the spec: `computeRay(origin, end)` — fails iff an endpoint
is out of the representable range, else the ordered centers of all cells
traversed from origin to end, excluding the cell containing `end`. -/
def computeRay (res : ℚ) (o e : Q3) : Option (List Q3) :=
  match genKeys res o, genKeys res e with
  | some ok, some ek => some ((rayKeys res o e ok ek).map (keyCenter res))
  | _, _ => none

/-- Modelled from the spec: `integrateMissOnRay` — apply
`updateNode(cell, occupied=false)` to every cell of the traversed sequence,
in order. -/
def integrateMissOnRay (s : TreeState) (l : List K3) : TreeState :=
  l.foldl (fun t k => updateNodeKey t k false) s

/-- Modelled from the spec: `insertRay(origin, end) -> success | fail` —
fails iff either endpoint quantizes out of bounds, else marks every cell of
`computeRay(origin, end)` free and then the endpoint cell occupied. -/
def insertRay (s : TreeState) (o e : Q3) : Bool × TreeState :=
  match genKeys s.resolution o, genKeys s.resolution e with
  | some ok, some ek =>
      (true,
       updateNodeKey (integrateMissOnRay s (rayKeys s.resolution o e ok ek))
         ek true)
  | _, _ => (false, s)

/-- Squared Euclidean distance between two points.  The model does all range
accounting on squared distances (the header's `double` norm is
monotone-equivalent for nonnegative ranges). -/
def dist2 (a b : Q3) : ℚ :=
  (a.x - b.x) ^ 2 + (a.y - b.y) ^ 2 + (a.z - b.z) ^ 2

/-- Modelled from the spec: the `castRay` march.  At each cell, in this
order: an occupied cell is an immediate hit; an unknown cell fails unless
ignored; a traveled distance beyond `maxRange > 0` fails; a cursor leaving
the representable volume fails; otherwise the march continues. -/
def castLoop (s : TreeState) (o : Q3) (ign : Bool) (R : ℚ) :
    ℕ → DDAState → Option K3
  | 0, _ => none
  | f + 1, st =>
      if classifyVal (searchKey s st.cur) = .occupied then some st.cur
      else if classifyVal (searchKey s st.cur) = .unknown ∧ ign = false then
        none
      else if 0 < R ∧ R ^ 2 < dist2 o (keyCenter s.resolution st.cur) then
        none
      else if ¬ inRange3 (rayStep st).cur then none
      else castLoop s o ign R f (rayStep st)

/-- Modelled from the spec: `castRay(origin, direction, ignoreUnknownCells,
maxRange)` — fails on a zero direction or an out-of-range origin, else
marches from origin's cell and returns the center of the first occupied
cell. -/
def castRay (s : TreeState) (o d : Q3) (ign : Bool) (R : ℚ) : Option Q3 :=
  if d = ⟨0, 0, 0⟩ then none
  else
    match genKeys s.resolution o with
    | none => none
    | some ok =>
        (castLoop s o ign R rayFuel (ddaInit s.resolution o ok d)).map
          (keyCenter s.resolution)

/-- A queried node's spatial extent: (center, edge length). -/
abbrev OcTreeVolume := Q3 × ℚ

/-- Edge length of a node at the given depth: `r * 2^(D - d)`. -/
def nodeSize (res : ℚ) (depth : ℕ) : ℚ := res * 2 ^ (treeDepth - depth)

/-- Center of the child in octant `j` of a node at the given depth centered
at `c` (bit 0 of the octant selects the upper x half, bit 1 y, bit 2 z). -/
def childCenterOct (res : ℚ) (depth : ℕ) (c : Q3) (j : ℕ) : Q3 :=
  ⟨c.x + (if j % 2 = 1 then nodeSize res depth / 4
          else -(nodeSize res depth / 4)),
   c.y + (if j / 2 % 2 = 1 then nodeSize res depth / 4
          else -(nodeSize res depth / 4)),
   c.z + (if j / 4 % 2 = 1 then nodeSize res depth / 4
          else -(nodeSize res depth / 4))⟩

/-- Effective depth limit of a collection query: `max_depth = 0` means no
limit (full depth). -/
def depthLimit (maxD : ℕ) : ℕ := if maxD = 0 then treeDepth else maxD

/-- Modelled from the spec: the depth-limited recursive walk of
`getLeafNodes` — emit the volume of every node that has no children or sits
at the depth limit. -/
def getLeafNodesRecurs (m : NodeMap) (res : ℚ) (maxD : ℕ) :
    ℕ → ℕ → List ℕ → Q3 → List OcTreeVolume
  | 0, depth, _, c => [(c, nodeSize res depth)]
  | f + 1, depth, q, c =>
      if depth < depthLimit maxD ∧ hasChildAt m q then
        (List.range 8).foldr (fun j acc =>
          (match lookupPath m (q ++ [j]) with
           | some _ => getLeafNodesRecurs m res maxD f (depth + 1) (q ++ [j])
               (childCenterOct res depth c j)
           | none => []) ++ acc) []
      else [(c, nodeSize res depth)]

/-- Modelled from the spec: collect the volumes of all true leaves no deeper
than `max_depth`. -/
def getLeafNodes (s : TreeState) (maxD : ℕ) : List OcTreeVolume :=
  getLeafNodesRecurs s.nodes s.resolution maxD treeDepth 0 [] ⟨0, 0, 0⟩

/-- Modelled from the spec: the walk of `getVoxels` — emit every visited
node (inner and leaf) down to the depth limit. -/
def getVoxelsRecurs (m : NodeMap) (res : ℚ) (maxD : ℕ) :
    ℕ → ℕ → List ℕ → Q3 → List OcTreeVolume
  | 0, depth, _, c => [(c, nodeSize res depth)]
  | f + 1, depth, q, c =>
      (c, nodeSize res depth) ::
      (if depth < depthLimit maxD ∧ hasChildAt m q then
        (List.range 8).foldr (fun j acc =>
          (match lookupPath m (q ++ [j]) with
           | some _ => getVoxelsRecurs m res maxD f (depth + 1) (q ++ [j])
               (childCenterOct res depth c j)
           | none => []) ++ acc) []
      else [])

/-- Modelled from the spec: collect all nodes at all levels. -/
def getVoxels (s : TreeState) (maxD : ℕ) : List OcTreeVolume :=
  getVoxelsRecurs s.nodes s.resolution maxD treeDepth 0 [] ⟨0, 0, 0⟩

/-- Classification of the child in octant `j` of the node at path `q`. -/
def childClassify (m : NodeMap) (q : List ℕ) (j : ℕ) : Occ :=
  classifyVal (lookupPath m (q ++ [j]))

/-- A node whose children are a strict mix of occupied and free. -/
def mixedChildren (m : NodeMap) (q : List ℕ) : Bool :=
  ((List.range 8).any (fun j => decide (childClassify m q j = .occupied))) &&
  ((List.range 8).any (fun j => decide (childClassify m q j = .free)))

/-- Modelled from the spec: the walk of `getOccupied` — classify leaves (or
cutoff nodes) via the capability; an inner node with a strict mix of
occupied and free children is itself reported occupied and not descended. -/
def getOccupiedRecurs (m : NodeMap) (res : ℚ) (maxD : ℕ) :
    ℕ → ℕ → List ℕ → Q3 → List OcTreeVolume
  | 0, depth, q, c =>
      if classifyVal (lookupPath m q) = .occupied then [(c, nodeSize res depth)]
      else []
  | f + 1, depth, q, c =>
      if depth < depthLimit maxD ∧ hasChildAt m q then
        if mixedChildren m q then [(c, nodeSize res depth)]
        else
          (List.range 8).foldr (fun j acc =>
            (match lookupPath m (q ++ [j]) with
             | some _ => getOccupiedRecurs m res maxD f (depth + 1) (q ++ [j])
                 (childCenterOct res depth c j)
             | none => []) ++ acc) []
      else
        if classifyVal (lookupPath m q) = .occupied then
          [(c, nodeSize res depth)]
        else []

/-- Modelled from the spec: all volumes regarded as occupied. -/
def getOccupied (s : TreeState) (maxD : ℕ) : List OcTreeVolume :=
  getOccupiedRecurs s.nodes s.resolution maxD treeDepth 0 [] ⟨0, 0, 0⟩

/-- Modelled from the spec: the walk of `getFreespace` — like `getOccupied`
but collecting free volumes; a mixed inner node is regarded occupied and
contributes nothing. -/
def getFreespaceRecurs (m : NodeMap) (res : ℚ) (maxD : ℕ) :
    ℕ → ℕ → List ℕ → Q3 → List OcTreeVolume
  | 0, depth, q, c =>
      if classifyVal (lookupPath m q) = .free then [(c, nodeSize res depth)]
      else []
  | f + 1, depth, q, c =>
      if depth < depthLimit maxD ∧ hasChildAt m q then
        if mixedChildren m q then []
        else
          (List.range 8).foldr (fun j acc =>
            (match lookupPath m (q ++ [j]) with
             | some _ => getFreespaceRecurs m res maxD f (depth + 1) (q ++ [j])
                 (childCenterOct res depth c j)
             | none => []) ++ acc) []
      else
        if classifyVal (lookupPath m q) = .free then
          [(c, nodeSize res depth)]
        else []

/-- Modelled from the spec: all volumes regarded as free. -/
def getFreespace (s : TreeState) (maxD : ℕ) : List OcTreeVolume :=
  getFreespaceRecurs s.nodes s.resolution maxD treeDepth 0 [] ⟨0, 0, 0⟩

/-- Modelled from the spec: `calcMinMax` — when the dirty flag is set,
recompute the cached metric bounds from all leaf cell extents (sentinel
initial bounds, as in the original) and clear the flag; otherwise no-op. -/
def calcMinMax (s : TreeState) : TreeState :=
  if s.sizeChanged then
    { s with
      sizeChanged := false
      minValue :=
        (getLeafNodes s 0).foldl (fun acc v =>
          ⟨min acc.x (v.1.x - v.2 / 2), min acc.y (v.1.y - v.2 / 2),
           min acc.z (v.1.z - v.2 / 2)⟩) ⟨10 ^ 9, 10 ^ 9, 10 ^ 9⟩
      maxValue :=
        (getLeafNodes s 0).foldl (fun acc v =>
          ⟨max acc.x (v.1.x + v.2 / 2), max acc.y (v.1.y + v.2 / 2),
           max acc.z (v.1.z + v.2 / 2)⟩) ⟨-10 ^ 9, -10 ^ 9, -10 ^ 9⟩ }
  else s

/-- The dense-grid comparison record (`class GridData` in the header): it
holds exactly one single-precision float, the per-cell log-odds occupancy
(the float's value is modelled as a rational). -/
structure GridData where
  log_odds_occupancy : ℚ

/-- Byte size of one `GridData` record: exactly one single-precision
(32-bit, 4-byte) float and nothing else. -/
def sizeofGridData : ℕ := 4

/-- Cell count of a dense grid covering the tree's metric bounding box at
the tree's resolution (bounds refreshed via `calcMinMax` first). -/
def gridCellCount (s : TreeState) : ℕ :=
  (⌈((calcMinMax s).maxValue.x - (calcMinMax s).minValue.x)
      / s.resolution⌉.toNat) *
  (⌈((calcMinMax s).maxValue.y - (calcMinMax s).minValue.y)
      / s.resolution⌉.toNat) *
  (⌈((calcMinMax s).maxValue.z - (calcMinMax s).minValue.z)
      / s.resolution⌉.toNat)

/-- Modelled from the spec: `memoryFullGrid` — the byte cost of a dense grid
over the same bounding volume: cell count times the per-cell record size;
no such grid is allocated. -/
def memoryFullGrid (s : TreeState) : ℕ := gridCellCount s * sizeofGridData

/-- The exposed operation surface of the tree (§6 of the spec). -/
inductive TreeOp where
  | updateOp (p : Q3) (occ : Bool)
  | insertOp (o e : Q3)
  | setResolutionOp (r : ℚ)
  | searchOp (p : Q3)
  | computeRayOp (o e : Q3)
  | castRayOp (o d : Q3) (ign : Bool) (R : ℚ)
  | getOccupiedOp (maxD : ℕ)
  | getFreespaceOp (maxD : ℕ)
  | getLeafNodesOp (maxD : ℕ)
  | getVoxelsOp (maxD : ℕ)
  | sizeOp
  | getMetricSizeOp
  | getMetricMinOp
  | getMetricMaxOp
  | memoryFullGridOp

/-- Output of one operation. -/
inductive OpOutput where
  | nodeOut (v : Option ℤ)
  | flagOut (b : Bool)
  | rayOut (l : Option (List Q3))
  | hitOut (c : Option Q3)
  | volsOut (l : List OcTreeVolume)
  | natOut (n : ℕ)
  | pointOut (p : Q3)

/-- One operation applied to the tree state: mutators run the update engine,
`setResolution` rebuilds the tree empty (the spec's full-rebuild semantics),
queries leave the node store untouched, and the metric queries (declared
non-const in the header) refresh only the cached bounds via `calcMinMax`. -/
def applyOp (s : TreeState) : TreeOp → OpOutput × TreeState
  | .updateOp p occ => ((OpOutput.nodeOut (updateNode s p occ).1),
      (updateNode s p occ).2)
  | .insertOp o e => ((OpOutput.flagOut (insertRay s o e).1),
      (insertRay s o e).2)
  | .setResolutionOp r => (OpOutput.flagOut true, freshTree r)
  | .searchOp p => (OpOutput.nodeOut (search s p), s)
  | .computeRayOp o e => (OpOutput.rayOut (computeRay s.resolution o e), s)
  | .castRayOp o d ign R => (OpOutput.hitOut (castRay s o d ign R), s)
  | .getOccupiedOp d => (OpOutput.volsOut (getOccupied s d), s)
  | .getFreespaceOp d => (OpOutput.volsOut (getFreespace s d), s)
  | .getLeafNodesOp d => (OpOutput.volsOut (getLeafNodes s d), s)
  | .getVoxelsOp d => (OpOutput.volsOut (getVoxels s d), s)
  | .sizeOp => (OpOutput.natOut s.tree_size, s)
  | .getMetricSizeOp =>
      (OpOutput.pointOut
        ⟨(calcMinMax s).maxValue.x - (calcMinMax s).minValue.x,
         (calcMinMax s).maxValue.y - (calcMinMax s).minValue.y,
         (calcMinMax s).maxValue.z - (calcMinMax s).minValue.z⟩,
       calcMinMax s)
  | .getMetricMinOp => (OpOutput.pointOut (calcMinMax s).minValue, calcMinMax s)
  | .getMetricMaxOp => (OpOutput.pointOut (calcMinMax s).maxValue, calcMinMax s)
  | .memoryFullGridOp => (OpOutput.natOut (memoryFullGrid s), calcMinMax s)

/-- The operations that only query the tree (everything except the update
engine and the resolution rebuild). -/
def isQueryOp : TreeOp → Bool
  | .updateOp _ _ => false
  | .insertOp _ _ => false
  | .setResolutionOp _ => false
  | _ => true

/-- Every tree state reachable from construction by any operation
sequence. -/
inductive Reachable : TreeState → Prop where
  | init (res : ℚ) : Reachable (freshTree res)
  | step (s : TreeState) (op : TreeOp) : Reachable s →
      Reachable (applyOp s op).2

/-- Every stored path's prefixes are stored too (children only exist under
their ancestors, down from the root). -/
def prefixClosed (m : NodeMap) : Prop :=
  ∀ q : List ℕ, (lookupPath m q).isSome →
    ∀ i ∈ List.range (q.length + 1), (lookupPath m (q.take i)).isSome

/-- Structural invariant of the node store: the live node counter matches
the number of stored nodes, paths are unique, and the store is
prefix-closed. -/
def Inv (s : TreeState) : Prop :=
  s.tree_size = s.nodes.length ∧ (s.nodes.map Prod.fst).Nodup ∧
  prefixClosed s.nodes

/-- Number of node instances reachable from the root by child links: stored
nodes all of whose ancestors are stored. -/
def reachableCount (s : TreeState) : ℕ :=
  (s.nodes.filter (fun e => (List.range (e.1.length + 1)).all
    (fun i => (lookupPath s.nodes (e.1.take i)).isSome))).length

theorem genKey_some_range {res v : ℚ} {k : ℤ} (h : genKey res v = some k) :
    inRangeK k := by
  unfold genKey at h
  split at h
  · rename_i hc
    cases h
    exact hc
  · cases h

theorem genKey_eq {res v : ℚ} {k : ℤ} (h : genKey res v = some k) :
    k = ⌊v / res⌋ + treeMaxVal := by
  unfold genKey at h
  split at h
  · cases h; rfl
  · cases h

theorem genKeys_some_range {res : ℚ} {p : Q3} {k : K3}
    (h : genKeys res p = some k) : inRange3 k := by
  unfold genKeys at h
  split at h
  · rename_i a b c hx hy hz
    cases h
    exact ⟨genKey_some_range hx, genKey_some_range hy, genKey_some_range hz⟩
  · cases h

theorem genKey_isNone_iff {res v : ℚ} (hres : 0 < res) :
    genKey res v = none ↔ (v < -32768 * res ∨ 32768 * res ≤ v) := by
  have hA : (0 ≤ ⌊v / res⌋ + treeMaxVal) ↔ (-32768 * res ≤ v) := by
    unfold treeMaxVal
    rw [show (0 ≤ ⌊v / res⌋ + 32768) ↔ ((-32768 : ℤ) ≤ ⌊v / res⌋) by omega,
        Int.le_floor]
    push_cast
    rw [le_div_iff₀ hres]
  have hB : (⌊v / res⌋ + treeMaxVal < keyUpper) ↔ (v < 32768 * res) := by
    unfold treeMaxVal keyUpper
    rw [show (⌊v / res⌋ + 32768 < 65536) ↔ (⌊v / res⌋ < (32768 : ℤ)) by omega,
        Int.floor_lt]
    push_cast
    rw [div_lt_iff₀ hres]
  unfold genKey
  by_cases h : 0 ≤ ⌊v / res⌋ + treeMaxVal ∧ ⌊v / res⌋ + treeMaxVal < keyUpper
  · rw [if_pos h]
    constructor
    · intro hh; cases hh
    · intro hh
      rcases hh with hh | hh
      · have := hA.mp h.1; linarith
      · have := hB.mp h.2; linarith
  · rw [if_neg h]
    constructor
    · intro _
      rcases not_and_or.mp h with h' | h'
      · exact Or.inl (lt_of_not_le (fun hc => h' (hA.mpr hc)))
      · exact Or.inr (le_of_not_lt (fun hc => h' (hB.mpr hc)))
    · intro _; rfl

theorem genKey_isNone_iff_idx {res v : ℚ} :
    genKey res v = none ↔ ¬ inRangeK (⌊v / res⌋ + treeMaxVal) := by
  unfold genKey inRangeK
  by_cases h : 0 ≤ ⌊v / res⌋ + treeMaxVal ∧ ⌊v / res⌋ + treeMaxVal < keyUpper
  · rw [if_pos h]
    simp [h]
  · rw [if_neg h]
    simp [h]

/-- C3 counterexample: at `res = 1` and `v = -32768` exactly, `|v| ≥ res * 2^(D-1)`
holds, yet `genKey` succeeds (with key 0): the claimed equivalence between the
index-based bound and the `|v|`-based bound fails at this boundary point. -/
theorem claim_C3_counterexample :
    genKey 1 (-32768) = some 0 ∧ |(-32768 : ℚ)| ≥ 1 * 2 ^ (treeDepth - 1) := by
  constructor
  · decide
  · norm_num [treeDepth]

/-- C3 (amended): for every coordinate `v` (with positive resolution),
`genKey(v)` fails iff `idx = ⌊v/res⌋ + 2^(D-1)` lies outside `[0, 2^D)`,
equivalently iff `v < -res*2^(D-1)` or `v ≥ res*2^(D-1)` (the lower boundary
point `v = -res*2^(D-1)` itself succeeds); on success the returned key is
`idx`. -/
theorem claim_C3_genKey_bounds {res v : ℚ} (hres : 0 < res) :
    (genKey res v = none ↔ ¬ inRangeK (⌊v / res⌋ + treeMaxVal)) ∧
    (genKey res v = none ↔ (v < -32768 * res ∨ 32768 * res ≤ v)) ∧
    (∀ k, genKey res v = some k → k = ⌊v / res⌋ + treeMaxVal) :=
  ⟨genKey_isNone_iff_idx, genKey_isNone_iff hres,
   fun _ h => genKey_eq h⟩

theorem claim_C3_genKey_bounds_witness :
    (genKey 1 40000 = none ↔ ¬ inRangeK (⌊(40000 : ℚ) / 1⌋ + treeMaxVal)) ∧
    (genKey 1 40000 = none ↔ ((40000 : ℚ) < -32768 * 1 ∨ 32768 * 1 ≤ (40000 : ℚ))) ∧
    (∀ k, genKey 1 40000 = some k → k = ⌊(40000 : ℚ) / 1⌋ + treeMaxVal) :=
  claim_C3_genKey_bounds (by norm_num)

/-- C4: quantization is idempotent after the first application: whenever
`genKey res v = some k`, re-quantizing the recovered cell center gives the
same key: `genKey res (genVal res k) = some k`. -/
theorem claim_C4_quantization_idempotent {res v : ℚ} (hres : 0 < res) {k : ℤ}
    (h : genKey res v = some k) : genKey res (genVal res k) = some k := by
  have hk : inRangeK k := genKey_some_range h
  have hfloor : ⌊genVal res k / res⌋ = k - treeMaxVal := by
    unfold genVal
    have h1 : ((k : ℚ) - ((treeMaxVal : ℤ) : ℚ) + 1/2) * res / res
        = ((k - treeMaxVal : ℤ) : ℚ) + 1/2 := by
      field_simp
      ring
    rw [h1, Int.floor_int_add]
    norm_num
  unfold genKey
  rw [hfloor, show k - treeMaxVal + treeMaxVal = k by omega]
  rw [if_pos (by exact hk)]

theorem claim_C4_quantization_idempotent_witness :
    genKey 1 (genVal 1 7) = some 7 :=
  @claim_C4_quantization_idempotent 1 (-32761) (by norm_num) 7 (by decide)

theorem octantAt_lt (k : K3) (level : ℕ) : octantAt k level < 8 := by
  unfold octantAt
  split <;> split <;> split <;> norm_num

theorem lookupPath_setPath_self (m : NodeMap) (q : List ℕ) (v : ℤ) :
    lookupPath (setPath m q v) q = some v := by
  induction m with
  | nil => simp [setPath, lookupPath]
  | cons hd tl ih =>
    obtain ⟨p, w⟩ := hd
    unfold setPath
    by_cases h : p = q
    · rw [if_pos h]
      simp [lookupPath]
    · rw [if_neg h]
      unfold lookupPath
      rw [if_neg h]
      exact ih

theorem lookupPath_setPath_ne (m : NodeMap) {q q' : List ℕ} (v : ℤ)
    (h : q' ≠ q) : lookupPath (setPath m q v) q' = lookupPath m q' := by
  induction m with
  | nil =>
    simp only [setPath, lookupPath]
    rw [if_neg (fun hh => h hh.symm)]
  | cons hd tl ih =>
    obtain ⟨p, w⟩ := hd
    unfold setPath
    by_cases hpq : p = q
    · rw [if_pos hpq]
      unfold lookupPath
      rw [if_neg (fun hh => h hh.symm), if_neg (fun hh => h (hpq ▸ hh).symm)]
    · rw [if_neg hpq]
      unfold lookupPath
      by_cases hpq' : p = q'
      · rw [if_pos hpq', if_pos hpq']
      · rw [if_neg hpq', if_neg hpq']
        exact ih

theorem ensurePath_resolution (s : TreeState) (q : List ℕ) :
    (ensurePath s q).resolution = s.resolution := by
  unfold ensurePath
  split <;> rfl

theorem lookupPath_ensurePath (s : TreeState) (q0 q : List ℕ) :
    lookupPath (ensurePath s q0).nodes q =
      if (lookupPath s.nodes q).isSome then lookupPath s.nodes q
      else if q = q0 then some 0 else none := by
  unfold ensurePath
  cases hl : lookupPath s.nodes q0 with
  | some v =>
    by_cases h : (lookupPath s.nodes q).isSome
    · rw [if_pos h]
    · rw [if_neg h]
      by_cases h2 : q = q0
      · subst h2
        rw [hl] at h
        simp at h
      · rw [if_neg h2]
        exact Option.not_isSome_iff_eq_none.mp h
  | none =>
    by_cases h2 : q = q0
    · subst h2
      rw [lookupPath_setPath_self]
      rw [hl]
      simp
    · rw [lookupPath_setPath_ne _ _ h2]
      by_cases h : (lookupPath s.nodes q).isSome
      · rw [if_pos h]
      · rw [if_neg h, if_neg h2]
        exact Option.not_isSome_iff_eq_none.mp h

theorem foldl_ensurePath_resolution (qs : List (List ℕ)) (s : TreeState) :
    (qs.foldl ensurePath s).resolution = s.resolution := by
  induction qs generalizing s with
  | nil => rfl
  | cons a tl ih =>
    rw [List.foldl_cons, ih, ensurePath_resolution]

theorem lookupPath_foldl_ensurePath (qs : List (List ℕ)) (s : TreeState)
    (q : List ℕ) :
    lookupPath ((qs.foldl ensurePath s)).nodes q =
      if (lookupPath s.nodes q).isSome then lookupPath s.nodes q
      else if q ∈ qs then some 0 else none := by
  induction qs generalizing s with
  | nil =>
    rw [List.foldl_nil]
    by_cases h : (lookupPath s.nodes q).isSome
    · rw [if_pos h]
    · rw [if_neg h, if_neg (List.not_mem_nil q),
          Option.not_isSome_iff_eq_none.mp h]
  | cons a tl ih =>
    rw [List.foldl_cons, ih, lookupPath_ensurePath]
    by_cases h : (lookupPath s.nodes q).isSome
    · simp [h]
    · by_cases h2 : q = a
      · subst h2
        simp [h]
      · simp [h, h2, List.mem_cons]

theorem ensureKeyPath_resolution (s : TreeState) (k : K3) :
    (ensureKeyPath s k).resolution = s.resolution :=
  foldl_ensurePath_resolution _ s

theorem lookupPath_ensureKeyPath (s : TreeState) (k : K3) (q : List ℕ) :
    lookupPath (ensureKeyPath s k).nodes q =
      if (lookupPath s.nodes q).isSome then lookupPath s.nodes q
      else if q ∈ keyPrefixes k then some 0 else none :=
  lookupPath_foldl_ensurePath _ s q

theorem fullPath_length (k : K3) : (fullPath k).length = treeDepth := by
  unfold fullPath
  rw [List.length_map, List.length_range]

theorem fullPath_mem_keyPrefixes (k : K3) : fullPath k ∈ keyPrefixes k := by
  unfold keyPrefixes
  rw [List.mem_map]
  exact ⟨treeDepth, by simp, by rw [← fullPath_length k, List.take_length]⟩

theorem take_mem_keyPrefixes (k : K3) {i : ℕ} (h : i ≤ treeDepth) :
    (fullPath k).take i ∈ keyPrefixes k := by
  unfold keyPrefixes
  rw [List.mem_map]
  exact ⟨i, by simp; omega, rfl⟩

theorem integrateAt_nodes (s : TreeState) (q : List ℕ) (b : Bool) :
    (integrateAt s q b).nodes
      = setPath s.nodes q ((lookupPath s.nodes q).getD 0 + if b then 1 else -1) :=
  rfl

theorem integrateAt_resolution (s : TreeState) (q : List ℕ) (b : Bool) :
    (integrateAt s q b).resolution = s.resolution := rfl

theorem integrateAt_tree_size (s : TreeState) (q : List ℕ) (b : Bool) :
    (integrateAt s q b).tree_size = s.tree_size := rfl

theorem updateNodeKey_resolution (s : TreeState) (k : K3) (b : Bool) :
    (updateNodeKey s k b).resolution = s.resolution := by
  unfold updateNodeKey
  rw [integrateAt_resolution, ensureKeyPath_resolution]

theorem updateNodeKey_lookup_self (s : TreeState) (k : K3) (b : Bool) :
    lookupPath (updateNodeKey s k b).nodes (fullPath k)
      = some (evid s k + if b then 1 else -1) := by
  unfold updateNodeKey
  rw [integrateAt_nodes, lookupPath_setPath_self, lookupPath_ensureKeyPath]
  unfold evid
  by_cases h : (lookupPath s.nodes (fullPath k)).isSome
  · rw [if_pos h]
  · rw [if_neg h, if_pos (fullPath_mem_keyPrefixes k),
        Option.not_isSome_iff_eq_none.mp h]
    rfl

theorem updateNodeKey_lookup_ne (s : TreeState) (k : K3) (b : Bool)
    {q : List ℕ} (h : q ≠ fullPath k) :
    lookupPath (updateNodeKey s k b).nodes q =
      if (lookupPath s.nodes q).isSome then lookupPath s.nodes q
      else if q ∈ keyPrefixes k then some 0 else none := by
  unfold updateNodeKey
  rw [integrateAt_nodes, lookupPath_setPath_ne _ _ h]
  exact lookupPath_ensureKeyPath s k q

theorem updateNodeKey_isSome_mono (s : TreeState) (k : K3) (b : Bool)
    {q : List ℕ} (h : (lookupPath s.nodes q).isSome) :
    (lookupPath (updateNodeKey s k b).nodes q).isSome := by
  by_cases hq : q = fullPath k
  · subst hq
    rw [updateNodeKey_lookup_self]
    rfl
  · rw [updateNodeKey_lookup_ne s k b hq, if_pos h]
    exact h

theorem pathComplete_updateNodeKey_self (s : TreeState) (k : K3) (b : Bool) :
    pathComplete (updateNodeKey s k b).nodes k := by
  intro i hi
  by_cases hq : (fullPath k).take i = fullPath k
  · rw [hq, updateNodeKey_lookup_self]
    rfl
  · rw [updateNodeKey_lookup_ne s k b hq]
    by_cases h : (lookupPath s.nodes ((fullPath k).take i)).isSome
    · rw [if_pos h]
      exact h
    · rw [if_neg h, if_pos (take_mem_keyPrefixes k hi)]
      rfl

theorem pathComplete_updateNodeKey_mono (s : TreeState) (k k' : K3) (b : Bool)
    (h : pathComplete s.nodes k') :
    pathComplete (updateNodeKey s k b).nodes k' :=
  fun i hi => updateNodeKey_isSome_mono s k b (h i hi)

theorem searchAux_of_complete (m : NodeMap) (rest : List ℕ) :
    ∀ q : List ℕ, (∀ a ∈ rest, a < 8) →
    (∀ i ≤ rest.length, (lookupPath m (q ++ rest.take i)).isSome) →
    searchAux m q rest = lookupPath m (q ++ rest) := by
  induction rest with
  | nil =>
    intro q _ _
    simp [searchAux]
  | cons j tl ih =>
    intro q h8 hc
    unfold searchAux
    have hj : (lookupPath m (q ++ [j])).isSome := by
      have := hc 1 (by simp)
      simpa using this
    have hchild : hasChildAt m q = true := by
      unfold hasChildAt
      rw [List.any_eq_true]
      exact ⟨j, List.mem_range.mpr (h8 j (by simp)), hj⟩
    rw [if_pos hchild]
    cases hl : lookupPath m (q ++ [j]) with
    | none =>
      rw [hl] at hj
      cases hj
    | some v =>
      have := ih (q ++ [j]) (fun a ha => h8 a (by simp [ha]))
        (fun i hi => by
          have := hc (i + 1) (by simpa using hi)
          simpa [List.append_assoc] using this)
      rw [this, List.append_assoc]
      rfl

theorem searchKey_of_complete (s : TreeState) (k : K3)
    (h : pathComplete s.nodes k) :
    searchKey s k = lookupPath s.nodes (fullPath k) := by
  unfold searchKey
  have h8 : ∀ a ∈ fullPath k, a < 8 := by
    intro a ha
    unfold fullPath at ha
    rw [List.mem_map] at ha
    obtain ⟨i, _, rfl⟩ := ha
    exact octantAt_lt k i
  have hc : ∀ i ≤ (fullPath k).length,
      (lookupPath s.nodes (([] : List ℕ) ++ (fullPath k).take i)).isSome := by
    intro i hi
    rw [List.nil_append]
    exact h i (by rwa [fullPath_length] at hi)
  have := searchAux_of_complete s.nodes (fullPath k) [] h8 hc
  simpa using this

/-- C2 counterexample: on a cell that already carries net-free evidence (two
prior misses), a single `updateNode(p, occupied=true)` leaves the cell
classified free, so the claim as stated (for every point, on every tree)
fails under the counter model of the occupancy capability. -/
theorem claim_C2_counterexample :
    search (updateNode (updateNode (updateNode (freshTree 1)
        ⟨1/2, 1/2, 1/2⟩ false).2 ⟨1/2, 1/2, 1/2⟩ false).2
        ⟨1/2, 1/2, 1/2⟩ true).2 ⟨1/2, 1/2, 1/2⟩ ≠ none ∧
    classifyVal (search (updateNode (updateNode (updateNode (freshTree 1)
        ⟨1/2, 1/2, 1/2⟩ false).2 ⟨1/2, 1/2, 1/2⟩ false).2
        ⟨1/2, 1/2, 1/2⟩ true).2 ⟨1/2, 1/2, 1/2⟩) = .free := by
  constructor
  · decide
  · decide

/-- C2 (amended): for every in-range point `p` whose cell carries no prior
conflicting (net-free) evidence, after `updateNode(p, occupied=true)` a
`search(p)` returns a node (not none) classified occupied by the occupancy
capability. -/
theorem claim_C2_update_then_search {s : TreeState} {p : Q3} {k : K3}
    (hk : genKeys s.resolution p = some k) (hprior : 0 ≤ evid s k) :
    search (updateNode s p true).2 p ≠ none ∧
    classifyVal (search (updateNode s p true).2 p) = .occupied := by
  have hupd : (updateNode s p true).2 = updateNodeKey s k true := by
    unfold updateNode
    rw [hk]
  rw [hupd]
  have hres : (updateNodeKey s k true).resolution = s.resolution :=
    updateNodeKey_resolution s k true
  have hsearch : search (updateNodeKey s k true) p
      = searchKey (updateNodeKey s k true) k := by
    unfold search
    rw [hres, hk]
  rw [hsearch, searchKey_of_complete _ k (pathComplete_updateNodeKey_self s k true),
      updateNodeKey_lookup_self]
  constructor
  · simp
  · have h1 : evid s k + (if True then (1 : ℤ) else -1) = evid s k + 1 := by
      norm_num
    simp only [classifyVal, h1]
    rw [if_pos (show (0 : ℤ) < evid s k + 1 by omega)]

theorem claim_C2_update_then_search_witness :
    search (updateNode (freshTree 1) ⟨1/2, 1/2, 1/2⟩ true).2
      ⟨1/2, 1/2, 1/2⟩ ≠ none ∧
    classifyVal (search (updateNode (freshTree 1) ⟨1/2, 1/2, 1/2⟩ true).2
      ⟨1/2, 1/2, 1/2⟩) = .occupied :=
  @claim_C2_update_then_search (freshTree 1) ⟨1/2, 1/2, 1/2⟩
    ⟨32768, 32768, 32768⟩ (by decide) (by decide)

theorem rayLoop_nil_of_eq {ek : K3} {st : DDAState} (h : st.cur = ek) :
    ∀ f, rayLoop ek f st = [] := by
  intro f
  cases f with
  | zero => rfl
  | succ f => simp [rayLoop, h]

theorem mem_rayLoop {ek : K3} {k : K3} :
    ∀ (f : ℕ) (st : DDAState), k ∈ rayLoop ek f st → k ≠ ek ∧ inRange3 k := by
  intro f
  induction f with
  | zero =>
    intro st h
    cases h
  | succ f ih =>
    intro st h
    unfold rayLoop at h
    by_cases h1 : st.cur = ek
    · rw [if_pos h1] at h
      cases h
    · rw [if_neg h1] at h
      by_cases h2 : inRange3 st.cur
      · rw [if_neg (by simpa using h2)] at h
        rcases List.mem_cons.mp h with rfl | h3
        · exact ⟨h1, h2⟩
        · exact ih _ h3
      · rw [if_pos (by simpa using h2)] at h
        cases h

theorem self_mem_rayLoop {ek : K3} {st : DDAState} (h1 : st.cur ≠ ek)
    (h2 : inRange3 st.cur) (f : ℕ) :
    st.cur ∈ rayLoop ek (f + 1) st := by
  unfold rayLoop
  rw [if_neg h1, if_neg (by simpa using h2)]
  exact List.mem_cons_self _ _

theorem genVal_injective {res : ℚ} (hres : 0 < res) {a b : ℤ}
    (h : genVal res a = genVal res b) : a = b := by
  unfold genVal at h
  have h2 : ((a : ℚ) - ((treeMaxVal : ℤ) : ℚ) + 1/2)
      = ((b : ℚ) - ((treeMaxVal : ℤ) : ℚ) + 1/2) :=
    mul_right_cancel₀ (ne_of_gt hres) h
  have h3 : (a : ℚ) = (b : ℚ) := by linarith
  exact_mod_cast h3

theorem keyCenter_injective {res : ℚ} (hres : 0 < res) {a b : K3}
    (h : keyCenter res a = keyCenter res b) : a = b := by
  unfold keyCenter at h
  cases a
  cases b
  injection h with hx hy hz
  simp only at hx hy hz
  rw [V3.mk.injEq]
  exact ⟨genVal_injective hres hx, genVal_injective hres hy,
         genVal_injective hres hz⟩

/-- C5: for in-range endpoints, the cell sequence of `computeRay(origin, end)`
never contains the cell containing `end`; when origin and end quantize to the
same cell it is empty; otherwise it starts from origin's cell (every element
of the sequence being, by construction, a cell traversed by the cursor). -/
theorem claim_C5_computeRay_cells {res : ℚ} {o e : Q3} {ok ek : K3}
    (hres : 0 < res) (ho : genKeys res o = some ok)
    (he : genKeys res e = some ek) {ray : List Q3}
    (hc : computeRay res o e = some ray) :
    (ok = ek → ray = []) ∧
    (ok ≠ ek → keyCenter res ok ∈ ray) ∧
    keyCenter res ek ∉ ray := by
  have hray : ray = (rayKeys res o e ok ek).map (keyCenter res) := by
    unfold computeRay at hc
    rw [ho, he] at hc
    exact (Option.some_injective _ hc).symm
  have hcur : (ddaInit res o ok (vsub e o)).cur = ok := rfl
  subst hray
  refine ⟨?_, ?_, ?_⟩
  · intro heq
    unfold rayKeys
    rw [rayLoop_nil_of_eq (by rw [hcur, heq])]
    rfl
  · intro hne
    have hmem : ok ∈ rayKeys res o e ok ek := by
      unfold rayKeys
      have := @self_mem_rayLoop ek (ddaInit res o ok (vsub e o))
        (by rwa [hcur]) (by rw [hcur]; exact genKeys_some_range ho)
        (rayFuel - 1)
      simpa [rayFuel] using this
    exact List.mem_map_of_mem _ hmem
  · intro hmem
    rw [List.mem_map] at hmem
    obtain ⟨k, hk, hck⟩ := hmem
    have := (mem_rayLoop _ _ hk).1
    exact this (keyCenter_injective hres hck)

theorem claim_C5_computeRay_cells_witness :
    ((⟨32768, 32768, 32768⟩ : K3) = ⟨32771, 32768, 32768⟩ →
      ([⟨1/2, 1/2, 1/2⟩, ⟨3/2, 1/2, 1/2⟩, ⟨5/2, 1/2, 1/2⟩] : List Q3) = []) ∧
    ((⟨32768, 32768, 32768⟩ : K3) ≠ ⟨32771, 32768, 32768⟩ →
      keyCenter 1 ⟨32768, 32768, 32768⟩ ∈
        ([⟨1/2, 1/2, 1/2⟩, ⟨3/2, 1/2, 1/2⟩, ⟨5/2, 1/2, 1/2⟩] : List Q3)) ∧
    keyCenter 1 ⟨32771, 32768, 32768⟩ ∉
      ([⟨1/2, 1/2, 1/2⟩, ⟨3/2, 1/2, 1/2⟩, ⟨5/2, 1/2, 1/2⟩] : List Q3) :=
  @claim_C5_computeRay_cells 1 ⟨1/2, 1/2, 1/2⟩ ⟨7/2, 1/2, 1/2⟩
    ⟨32768, 32768, 32768⟩ ⟨32771, 32768, 32768⟩ (by norm_num) (by decide)
    (by decide) _ (by decide)

theorem pack_bits_inj :
    ∀ a b c a' b' c' : Bool,
      ((if a then 1 else 0) + (if b then 2 else 0) + (if c then 4 else 0) : ℕ)
        = (if a' then 1 else 0) + (if b' then 2 else 0) + (if c' then 4 else 0)
      → a = a' ∧ b = b' ∧ c = c' := by decide

theorem testBit_eq_of_octantAt_eq {k k' : K3} {i : ℕ}
    (h : octantAt k i = octantAt k' i) :
    k.x.toNat.testBit (15 - i) = k'.x.toNat.testBit (15 - i) ∧
    k.y.toNat.testBit (15 - i) = k'.y.toNat.testBit (15 - i) ∧
    k.z.toNat.testBit (15 - i) = k'.z.toNat.testBit (15 - i) := by
  unfold octantAt at h
  exact pack_bits_inj _ _ _ _ _ _ h

theorem int_eq_of_testBit_eq {a b : ℤ} (ha : inRangeK a) (hb : inRangeK b)
    (h : ∀ j < 16, a.toNat.testBit j = b.toNat.testBit j) : a = b := by
  have ha' : a.toNat < 2 ^ 16 := by
    unfold inRangeK keyUpper at ha
    omega
  have hb' : b.toNat < 2 ^ 16 := by
    unfold inRangeK keyUpper at hb
    omega
  have : a.toNat = b.toNat := by
    apply Nat.eq_of_testBit_eq
    intro j
    by_cases hj : j < 16
    · exact h j hj
    · rw [Nat.testBit_eq_false_of_lt, Nat.testBit_eq_false_of_lt]
      · exact lt_of_lt_of_le hb' (Nat.pow_le_pow_right (by norm_num) (by omega))
      · exact lt_of_lt_of_le ha' (Nat.pow_le_pow_right (by norm_num) (by omega))
  unfold inRangeK at ha hb
  omega

theorem fullPath_injective {k k' : K3} (hk : inRange3 k) (hk' : inRange3 k')
    (h : fullPath k = fullPath k') : k = k' := by
  have hoct : ∀ i ∈ List.range treeDepth, octantAt k i = octantAt k' i := by
    rw [← List.map_inj_left]
    exact h
  have hbits : ∀ j < 16,
      (k.x.toNat.testBit j = k'.x.toNat.testBit j) ∧
      (k.y.toNat.testBit j = k'.y.toNat.testBit j) ∧
      (k.z.toNat.testBit j = k'.z.toNat.testBit j) := by
    intro j hj
    have h15 : 15 - (15 - j) = j := by omega
    have := testBit_eq_of_octantAt_eq
      (hoct (15 - j) (List.mem_range.mpr (by unfold treeDepth; omega)))
    rwa [h15] at this
  obtain ⟨hkx, hky, hkz⟩ := hk
  obtain ⟨hkx', hky', hkz'⟩ := hk'
  have ex : k.x = k'.x :=
    int_eq_of_testBit_eq hkx hkx' (fun j hj => (hbits j hj).1)
  have ey : k.y = k'.y :=
    int_eq_of_testBit_eq hky hky' (fun j hj => (hbits j hj).2.1)
  have ez : k.z = k'.z :=
    int_eq_of_testBit_eq hkz hkz' (fun j hj => (hbits j hj).2.2)
  cases k
  cases k'
  simp only at ex ey ez
  rw [V3.mk.injEq]
  exact ⟨ex, ey, ez⟩

theorem mem_keyPrefixes_full {k : K3} {q : List ℕ} (hq : q ∈ keyPrefixes k)
    (hlen : q.length = treeDepth) : q = fullPath k := by
  unfold keyPrefixes at hq
  rw [List.mem_map] at hq
  obtain ⟨i, hi, rfl⟩ := hq
  rw [List.mem_range] at hi
  rw [List.length_take, fullPath_length] at hlen
  rw [show i = treeDepth by omega, ← fullPath_length k, List.take_length]

theorem updateNodeKey_lookup_full_ne (s : TreeState) (k : K3) (b : Bool)
    {k' : K3} (hne : fullPath k' ≠ fullPath k) :
    lookupPath (updateNodeKey s k b).nodes (fullPath k')
      = lookupPath s.nodes (fullPath k') := by
  rw [updateNodeKey_lookup_ne s k b hne]
  by_cases h : (lookupPath s.nodes (fullPath k')).isSome
  · rw [if_pos h]
  · rw [if_neg h,
        if_neg (fun hc => hne (mem_keyPrefixes_full hc (fullPath_length k'))),
        Option.not_isSome_iff_eq_none.mp h]

theorem evid_updateNodeKey_ne {s : TreeState} {k k' : K3} {b : Bool}
    (hne : fullPath k' ≠ fullPath k) :
    evid (updateNodeKey s k b) k' = evid s k' := by
  unfold evid
  rw [updateNodeKey_lookup_full_ne s k b hne]

theorem evid_updateNodeKey_path_eq {s : TreeState} {k k' : K3} {b : Bool}
    (heq : fullPath k' = fullPath k) :
    evid (updateNodeKey s k b) k' = evid s k' + if b then 1 else -1 := by
  unfold evid
  rw [heq, updateNodeKey_lookup_self]
  rfl

theorem missFold_resolution (l : List K3) (s : TreeState) :
    (integrateMissOnRay s l).resolution = s.resolution := by
  induction l generalizing s with
  | nil => rfl
  | cons a tl ih =>
    unfold integrateMissOnRay at ih ⊢
    rw [List.foldl_cons, ih, updateNodeKey_resolution]

theorem missFold_lookup_ne (l : List K3) (s : TreeState) {k' : K3}
    (h : ∀ k ∈ l, fullPath k ≠ fullPath k') :
    lookupPath (integrateMissOnRay s l).nodes (fullPath k')
      = lookupPath s.nodes (fullPath k') := by
  induction l generalizing s with
  | nil => rfl
  | cons a tl ih =>
    unfold integrateMissOnRay at ih ⊢
    rw [List.foldl_cons, ih _ (fun k hk => h k (List.mem_cons_of_mem a hk)),
        updateNodeKey_lookup_full_ne _ _ _
          (Ne.symm (h a (List.mem_cons_self a tl)))]

theorem missFold_evid_ne (l : List K3) (s : TreeState) {k' : K3}
    (h : ∀ k ∈ l, fullPath k ≠ fullPath k') :
    evid (integrateMissOnRay s l) k' = evid s k' := by
  unfold evid
  rw [missFold_lookup_ne l s h]

theorem evid_updateNodeKey_miss_le (s : TreeState) (k0 k : K3) :
    evid (updateNodeKey s k0 false) k ≤ evid s k := by
  by_cases h : fullPath k = fullPath k0
  · rw [evid_updateNodeKey_path_eq h]
    simp
  · rw [evid_updateNodeKey_ne h]

theorem missFold_evid_le (l : List K3) (s : TreeState) (k : K3) :
    evid (integrateMissOnRay s l) k ≤ evid s k := by
  induction l generalizing s with
  | nil => exact le_refl _
  | cons a tl ih =>
    unfold integrateMissOnRay at ih ⊢
    rw [List.foldl_cons]
    exact le_trans (ih (updateNodeKey s a false))
      (evid_updateNodeKey_miss_le s a k)

theorem missFold_evid_mem_le {l : List K3} (s : TreeState) {k : K3}
    (hmem : k ∈ l) : evid (integrateMissOnRay s l) k ≤ evid s k - 1 := by
  induction l generalizing s with
  | nil => cases hmem
  | cons a tl ih =>
    unfold integrateMissOnRay at ih ⊢
    rw [List.foldl_cons]
    rcases List.mem_cons.mp hmem with rfl | h3
    · have h1 : evid (updateNodeKey s k false) k = evid s k - 1 := by
        rw [evid_updateNodeKey_path_eq rfl]
        norm_num
        omega
      calc evid (List.foldl (fun t k => updateNodeKey t k false)
              (updateNodeKey s k false) tl) k
          ≤ evid (updateNodeKey s k false) k :=
            missFold_evid_le tl (updateNodeKey s k false) k
        _ = evid s k - 1 := h1
    · calc evid (List.foldl (fun t k => updateNodeKey t k false)
              (updateNodeKey s a false) tl) k
          ≤ evid (updateNodeKey s a false) k - 1 := ih _ h3
        _ ≤ evid s k - 1 := by
            have := evid_updateNodeKey_miss_le s a k
            omega

theorem missFold_isSome_mono (l : List K3) (s : TreeState) {q : List ℕ}
    (h : (lookupPath s.nodes q).isSome) :
    (lookupPath (integrateMissOnRay s l).nodes q).isSome := by
  induction l generalizing s with
  | nil => exact h
  | cons a tl ih =>
    unfold integrateMissOnRay at ih ⊢
    rw [List.foldl_cons]
    exact ih _ (updateNodeKey_isSome_mono s a false h)

theorem missFold_pathComplete_mono (l : List K3) (s : TreeState) {k : K3}
    (h : pathComplete s.nodes k) :
    pathComplete (integrateMissOnRay s l).nodes k :=
  fun i hi => missFold_isSome_mono l s (h i hi)

theorem missFold_pathComplete_mem {l : List K3} (s : TreeState) {k : K3}
    (hmem : k ∈ l) : pathComplete (integrateMissOnRay s l).nodes k := by
  induction l generalizing s with
  | nil => cases hmem
  | cons a tl ih =>
    unfold integrateMissOnRay at ih ⊢
    rw [List.foldl_cons]
    rcases List.mem_cons.mp hmem with rfl | h3
    · exact missFold_pathComplete_mono tl _
        (pathComplete_updateNodeKey_self s k false)
    · exact ih _ h3

theorem missFold_isSome_mem {l : List K3} (s : TreeState) {k : K3}
    (hmem : k ∈ l) :
    (lookupPath (integrateMissOnRay s l).nodes (fullPath k)).isSome := by
  have := missFold_pathComplete_mem s hmem treeDepth (le_refl _)
  rwa [← fullPath_length k, List.take_length] at this

/-- C1: for in-range endpoints (and absent prior conflicting evidence),
after `insertRay(origin, end)` succeeds the cell containing `end` is
classified occupied and its evidence has received exactly the one final hit
(net change +1, making it the last and only cell marked occupied by the
call: every other cell's evidence can only have decreased), every cell of
`computeRay(origin, end)` is classified free, and `insertRay` fails iff
either endpoint quantizes out of bounds. -/
theorem claim_C1_insertRay {s : TreeState} {o e : Q3} {ok ek : K3}
    (ho : genKeys s.resolution o = some ok)
    (he : genKeys s.resolution e = some ek)
    (hpe : 0 ≤ evid s ek)
    (hpr : ∀ k ∈ rayKeys s.resolution o e ok ek, evid s k ≤ 0) :
    (insertRay s o e).1 = true ∧
    (∀ o' e', (insertRay s o' e').1 = false ↔
      (genKeys s.resolution o' = none ∨ genKeys s.resolution e' = none)) ∧
    search (insertRay s o e).2 e ≠ none ∧
    classifyVal (search (insertRay s o e).2 e) = .occupied ∧
    evid (insertRay s o e).2 ek = evid s ek + 1 ∧
    (∀ k ∈ rayKeys s.resolution o e ok ek,
      classifyVal (searchKey (insertRay s o e).2 k) = .free) ∧
    (∀ k : K3, fullPath k ≠ fullPath ek →
      evid (insertRay s o e).2 k ≤ evid s k) := by
  have hstate : insertRay s o e
      = (true,
         updateNodeKey
           (integrateMissOnRay s (rayKeys s.resolution o e ok ek)) ek true) := by
    unfold insertRay
    rw [ho, he]
  have hekr : inRange3 ek := genKeys_some_range he
  have hray_ne : ∀ k ∈ rayKeys s.resolution o e ok ek,
      fullPath k ≠ fullPath ek := by
    intro k hk hc
    have h1 := mem_rayLoop rayFuel _ hk
    exact h1.1 (fullPath_injective h1.2 hekr hc)
  have hres1 : (integrateMissOnRay s (rayKeys s.resolution o e ok ek)).resolution
      = s.resolution := missFold_resolution _ s
  have hres2 : (updateNodeKey
      (integrateMissOnRay s (rayKeys s.resolution o e ok ek)) ek true).resolution
      = s.resolution := by
    rw [updateNodeKey_resolution, hres1]
  have hev1 : evid (integrateMissOnRay s (rayKeys s.resolution o e ok ek)) ek
      = evid s ek := missFold_evid_ne _ s hray_ne
  have hlook2 : lookupPath (updateNodeKey
      (integrateMissOnRay s (rayKeys s.resolution o e ok ek)) ek true).nodes
      (fullPath ek) = some (evid s ek + 1) := by
    rw [updateNodeKey_lookup_self, hev1]
    norm_num
  have hsearch2 : search (updateNodeKey
      (integrateMissOnRay s (rayKeys s.resolution o e ok ek)) ek true) e
      = some (evid s ek + 1) := by
    unfold search
    rw [hres2, he]
    show searchKey (updateNodeKey
      (integrateMissOnRay s (rayKeys s.resolution o e ok ek)) ek true) ek
      = some (evid s ek + 1)
    rw [searchKey_of_complete _ ek (pathComplete_updateNodeKey_self _ ek true),
        hlook2]
  have hfree : ∀ k ∈ rayKeys s.resolution o e ok ek,
      classifyVal (searchKey (updateNodeKey
        (integrateMissOnRay s (rayKeys s.resolution o e ok ek)) ek true) k)
      = .free := by
    intro k hk
    have hc2 : pathComplete (updateNodeKey
        (integrateMissOnRay s (rayKeys s.resolution o e ok ek)) ek true).nodes k :=
      pathComplete_updateNodeKey_mono _ ek k true (missFold_pathComplete_mem s hk)
    rw [searchKey_of_complete _ k hc2,
        updateNodeKey_lookup_full_ne _ ek true (hray_ne k hk)]
    have hsome : (lookupPath
        (integrateMissOnRay s (rayKeys s.resolution o e ok ek)).nodes
        (fullPath k)).isSome := missFold_isSome_mem s hk
    obtain ⟨v, hv⟩ := Option.isSome_iff_exists.mp hsome
    rw [hv]
    have hvv : evid (integrateMissOnRay s (rayKeys s.resolution o e ok ek)) k
        = v := by
      unfold evid
      rw [hv]
      rfl
    have hle := missFold_evid_mem_le s hk
    have hk0 : evid s k ≤ 0 := hpr k hk
    simp only [classifyVal]
    rw [if_neg (by omega)]
  have honly : ∀ k : K3, fullPath k ≠ fullPath ek →
      evid (updateNodeKey
        (integrateMissOnRay s (rayKeys s.resolution o e ok ek)) ek true) k
      ≤ evid s k := by
    intro k hne
    rw [evid_updateNodeKey_ne hne]
    exact missFold_evid_le _ s k
  have hifff : ∀ o' e', (insertRay s o' e').1 = false ↔
      (genKeys s.resolution o' = none ∨ genKeys s.resolution e' = none) := by
    intro o' e'
    unfold insertRay
    cases h1 : genKeys s.resolution o' with
    | none =>
      cases h2 : genKeys s.resolution e' <;> simp
    | some k1 =>
      cases h2 : genKeys s.resolution e' <;> simp
  rw [hstate]
  refine ⟨rfl, hifff, ?_, ?_, ?_, hfree, honly⟩
  · show search _ e ≠ none
    rw [hsearch2]
    simp
  · show classifyVal (search _ e) = .occupied
    rw [hsearch2]
    simp only [classifyVal]
    rw [if_pos (by omega)]
  · show evid _ ek = evid s ek + 1
    unfold evid
    rw [hlook2]
    rfl

theorem claim_C1_insertRay_witness :
    (insertRay (freshTree 1) ⟨1/2, 1/2, 1/2⟩ ⟨7/2, 1/2, 1/2⟩).1 = true ∧
    (∀ o' e', (insertRay (freshTree 1) o' e').1 = false ↔
      (genKeys (freshTree 1).resolution o' = none ∨
       genKeys (freshTree 1).resolution e' = none)) ∧
    search (insertRay (freshTree 1) ⟨1/2, 1/2, 1/2⟩ ⟨7/2, 1/2, 1/2⟩).2
      ⟨7/2, 1/2, 1/2⟩ ≠ none ∧
    classifyVal (search (insertRay (freshTree 1) ⟨1/2, 1/2, 1/2⟩
      ⟨7/2, 1/2, 1/2⟩).2 ⟨7/2, 1/2, 1/2⟩) = .occupied ∧
    evid (insertRay (freshTree 1) ⟨1/2, 1/2, 1/2⟩ ⟨7/2, 1/2, 1/2⟩).2
      ⟨32771, 32768, 32768⟩
      = evid (freshTree 1) ⟨32771, 32768, 32768⟩ + 1 ∧
    (∀ k ∈ rayKeys (freshTree 1).resolution ⟨1/2, 1/2, 1/2⟩ ⟨7/2, 1/2, 1/2⟩
        ⟨32768, 32768, 32768⟩ ⟨32771, 32768, 32768⟩,
      classifyVal (searchKey (insertRay (freshTree 1) ⟨1/2, 1/2, 1/2⟩
        ⟨7/2, 1/2, 1/2⟩).2 k) = .free) ∧
    (∀ k : K3, fullPath k ≠ fullPath ⟨32771, 32768, 32768⟩ →
      evid (insertRay (freshTree 1) ⟨1/2, 1/2, 1/2⟩ ⟨7/2, 1/2, 1/2⟩).2 k
        ≤ evid (freshTree 1) k) :=
  claim_C1_insertRay (by decide) (by decide) (by decide) (by decide)

/-- C8: an out-of-bounds `updateNode` or `insertRay` returns its failure
indicator with the tree state completely unchanged: failure is decided by
quantization before any node is created or any evidence integrated. -/
theorem claim_C8_no_partial_mutation (s : TreeState) :
    (∀ p occ, genKeys s.resolution p = none → updateNode s p occ = (none, s)) ∧
    (∀ o e, (genKeys s.resolution o = none ∨ genKeys s.resolution e = none) →
      insertRay s o e = (false, s)) := by
  constructor
  · intro p occ h
    unfold updateNode
    rw [h]
  · intro o e h
    unfold insertRay
    cases h1 : genKeys s.resolution o with
    | none => cases h2 : genKeys s.resolution e <;> rfl
    | some k1 =>
      cases h2 : genKeys s.resolution e with
      | none => rfl
      | some k2 =>
        rw [h1, h2] at h
        rcases h with h | h <;> cases h

theorem claim_C8_no_partial_mutation_witness :
    updateNode (freshTree 1) ⟨40000, 0, 0⟩ true = (none, freshTree 1) ∧
    insertRay (freshTree 1) ⟨40000, 0, 0⟩ ⟨1/2, 1/2, 1/2⟩
      = (false, freshTree 1) :=
  ⟨(claim_C8_no_partial_mutation (freshTree 1)).1 ⟨40000, 0, 0⟩ true (by decide),
   (claim_C8_no_partial_mutation (freshTree 1)).2 ⟨40000, 0, 0⟩ ⟨1/2, 1/2, 1/2⟩
     (Or.inl (by decide))⟩

theorem genKeys_components {res : ℚ} {p : Q3} {k : K3}
    (h : genKeys res p = some k) :
    genKey res p.x = some k.x ∧ genKey res p.y = some k.y ∧
    genKey res p.z = some k.z := by
  unfold genKeys at h
  split at h
  · rename_i a b c hx hy hz
    cases h
    exact ⟨hx, hy, hz⟩
  · cases h

theorem genKey_center_close {res v : ℚ} (hres : 0 < res) {k : ℤ}
    (h : genKey res v = some k) : |v - genVal res k| ≤ res / 2 := by
  have hk := genKey_eq h
  unfold genVal
  rw [hk]
  have he : v - ((((⌊v / res⌋ + treeMaxVal : ℤ) : ℚ))
      - ((treeMaxVal : ℤ) : ℚ) + 1/2) * res
      = (v / res - (⌊v / res⌋ : ℚ) - 1/2) * res := by
    push_cast
    field_simp
    ring
  rw [he, abs_mul, abs_of_pos hres]
  have h0 : (0 : ℚ) ≤ v / res - ⌊v / res⌋ := sub_nonneg.mpr (Int.floor_le _)
  have h1 : v / res - (⌊v / res⌋ : ℚ) < 1 := by
    have := Int.lt_floor_add_one (v / res)
    linarith
  have habs : |v / res - (⌊v / res⌋ : ℚ) - 1/2| ≤ 1/2 := by
    rw [abs_le]
    constructor <;> linarith
  calc |v / res - (⌊v / res⌋ : ℚ) - 1/2| * res ≤ (1/2) * res := by
        exact mul_le_mul_of_nonneg_right habs (le_of_lt hres)
    _ = res / 2 := by ring

theorem genVal_sub (res : ℚ) (a b : ℤ) :
    genVal res a - genVal res b = ((a - b : ℤ) : ℚ) * res := by
  unfold genVal
  push_cast
  ring

theorem axisInit_fst_abs (res oa : ℚ) (ka : ℤ) (da : ℚ) :
    |(axisInit res oa ka da).1| ≤ 1 := by
  unfold axisInit
  split
  · norm_num
  · split <;> norm_num

theorem advAxis_fst (m : ℚ) (c s : ℤ) (tM tD : Option ℚ) :
    (advAxis m c s tM tD).1 = c ∨ (advAxis m c s tM tD).1 = c + s := by
  unfold advAxis
  split <;> try split
  all_goals first
  | exact Or.inl rfl
  | exact Or.inr rfl

theorem rayStep_step (st : DDAState) : (rayStep st).step = st.step := by
  unfold rayStep
  split <;> rfl

theorem rayStep_cur_or (st : DDAState) :
    ((rayStep st).cur.x = st.cur.x ∨ (rayStep st).cur.x = st.cur.x + st.step.x) ∧
    ((rayStep st).cur.y = st.cur.y ∨ (rayStep st).cur.y = st.cur.y + st.step.y) ∧
    ((rayStep st).cur.z = st.cur.z ∨ (rayStep st).cur.z = st.cur.z + st.step.z) := by
  unfold rayStep
  split
  · exact ⟨Or.inl rfl, Or.inl rfl, Or.inl rfl⟩
  · exact ⟨advAxis_fst _ _ _ _ _, advAxis_fst _ _ _ _ _,
           advAxis_fst _ _ _ _ _⟩

theorem dist2_step_bound {R res : ℚ} (hR : 0 < R) (hres : 0 < res)
    {x1 x2 x3 y1 y2 y3 : ℚ}
    (hx : x1 ^ 2 + x2 ^ 2 + x3 ^ 2 ≤ R ^ 2)
    (hy1 : |y1| ≤ res) (hy2 : |y2| ≤ res) (hy3 : |y3| ≤ res) :
    (x1 + y1) ^ 2 + (x2 + y2) ^ 2 + (x3 + y3) ^ 2
      ≤ (R + 2 * res) ^ 2 := by
  obtain ⟨hy1a, hy1b⟩ := abs_le.mp hy1
  obtain ⟨hy2a, hy2b⟩ := abs_le.mp hy2
  obtain ⟨hy3a, hy3b⟩ := abs_le.mp hy3
  have hS2 : (|x1| + |x2| + |x3|) ^ 2 ≤ 3 * (x1 ^ 2 + x2 ^ 2 + x3 ^ 2) := by
    nlinarith [sq_nonneg (|x1| - |x2|), sq_nonneg (|x1| - |x3|),
               sq_nonneg (|x2| - |x3|), sq_abs x1, sq_abs x2, sq_abs x3]
  have hS : |x1| + |x2| + |x3| ≤ 2 * R := by
    nlinarith [sq_nonneg (|x1| + |x2| + |x3| - 2 * R), abs_nonneg x1,
               abs_nonneg x2, abs_nonneg x3]
  have hxy : x1 * y1 + x2 * y2 + x3 * y3 ≤ (|x1| + |x2| + |x3|) * res := by
    have e1 : x1 * y1 ≤ |x1| * res := by
      calc x1 * y1 ≤ |x1 * y1| := le_abs_self _
        _ = |x1| * |y1| := abs_mul _ _
        _ ≤ |x1| * res := mul_le_mul_of_nonneg_left hy1 (abs_nonneg x1)
    have e2 : x2 * y2 ≤ |x2| * res := by
      calc x2 * y2 ≤ |x2 * y2| := le_abs_self _
        _ = |x2| * |y2| := abs_mul _ _
        _ ≤ |x2| * res := mul_le_mul_of_nonneg_left hy2 (abs_nonneg x2)
    have e3 : x3 * y3 ≤ |x3| * res := by
      calc x3 * y3 ≤ |x3 * y3| := le_abs_self _
        _ = |x3| * |y3| := abs_mul _ _
        _ ≤ |x3| * res := mul_le_mul_of_nonneg_left hy3 (abs_nonneg x3)
    linarith
  nlinarith [mul_le_mul_of_nonneg_right hS (le_of_lt hres)]

theorem castLoop_some_bound {s : TreeState} {o : Q3} {ign : Bool} {R : ℚ}
    (hR : 0 < R) (hres : 0 < s.resolution) :
    ∀ (f : ℕ) (st : DDAState),
      |st.step.x| ≤ 1 → |st.step.y| ≤ 1 → |st.step.z| ≤ 1 →
      dist2 o (keyCenter s.resolution st.cur) ≤ (R + 2 * s.resolution) ^ 2 →
      ∀ k, castLoop s o ign R f st = some k →
      dist2 o (keyCenter s.resolution k) ≤ (R + 2 * s.resolution) ^ 2 := by
  intro f
  induction f with
  | zero =>
    intro st _ _ _ _ k h
    cases h
  | succ f ih =>
    intro st h1 h2 h3 hinv k h
    unfold castLoop at h
    by_cases hocc : classifyVal (searchKey s st.cur) = .occupied
    · rw [if_pos hocc] at h
      cases h
      exact hinv
    · rw [if_neg hocc] at h
      by_cases hunk : classifyVal (searchKey s st.cur) = .unknown ∧ ign = false
      · rw [if_pos hunk] at h
        cases h
      · rw [if_neg hunk] at h
        by_cases hrange : 0 < R ∧ R ^ 2 < dist2 o (keyCenter s.resolution st.cur)
        · rw [if_pos hrange] at h
          cases h
        · rw [if_neg hrange] at h
          by_cases hleave : ¬ inRange3 (rayStep st).cur
          · rw [if_pos hleave] at h
            cases h
          · rw [if_neg hleave] at h
            have hnear : dist2 o (keyCenter s.resolution st.cur) ≤ R ^ 2 := by
              rcases not_and_or.mp hrange with hc | hc
              · exact absurd hR hc
              · exact le_of_not_lt hc
            have hstep := rayStep_cur_or st
            have hshift : |genVal s.resolution (rayStep st).cur.x
                  - genVal s.resolution st.cur.x| ≤ s.resolution ∧
                |genVal s.resolution (rayStep st).cur.y
                  - genVal s.resolution st.cur.y| ≤ s.resolution ∧
                |genVal s.resolution (rayStep st).cur.z
                  - genVal s.resolution st.cur.z| ≤ s.resolution := by
              refine ⟨?_, ?_, ?_⟩
              · rcases hstep.1 with hc | hc
                · rw [hc]
                  simp [abs_nonneg, le_of_lt hres]
                · rw [hc, genVal_sub]
                  rw [abs_mul, abs_of_pos hres]
                  have : |((st.cur.x + st.step.x - st.cur.x : ℤ) : ℚ)|
                      ≤ 1 := by
                    push_cast
                    rw [show (st.cur.x : ℚ) + st.step.x - st.cur.x
                        = (st.step.x : ℚ) by ring]
                    rw [show |(st.step.x : ℚ)| = ((|st.step.x| : ℤ) : ℚ) by
                      push_cast; rfl]
                    exact_mod_cast h1
                  nlinarith [abs_nonneg (((st.cur.x + st.step.x - st.cur.x : ℤ) : ℚ))]
              · rcases hstep.2.1 with hc | hc
                · rw [hc]
                  simp [abs_nonneg, le_of_lt hres]
                · rw [hc, genVal_sub]
                  rw [abs_mul, abs_of_pos hres]
                  have : |((st.cur.y + st.step.y - st.cur.y : ℤ) : ℚ)|
                      ≤ 1 := by
                    push_cast
                    rw [show (st.cur.y : ℚ) + st.step.y - st.cur.y
                        = (st.step.y : ℚ) by ring]
                    rw [show |(st.step.y : ℚ)| = ((|st.step.y| : ℤ) : ℚ) by
                      push_cast; rfl]
                    exact_mod_cast h2
                  nlinarith [abs_nonneg (((st.cur.y + st.step.y - st.cur.y : ℤ) : ℚ))]
              · rcases hstep.2.2 with hc | hc
                · rw [hc]
                  simp [abs_nonneg, le_of_lt hres]
                · rw [hc, genVal_sub]
                  rw [abs_mul, abs_of_pos hres]
                  have : |((st.cur.z + st.step.z - st.cur.z : ℤ) : ℚ)|
                      ≤ 1 := by
                    push_cast
                    rw [show (st.cur.z : ℚ) + st.step.z - st.cur.z
                        = (st.step.z : ℚ) by ring]
                    rw [show |(st.step.z : ℚ)| = ((|st.step.z| : ℤ) : ℚ) by
                      push_cast; rfl]
                    exact_mod_cast h3
                  nlinarith [abs_nonneg (((st.cur.z + st.step.z - st.cur.z : ℤ) : ℚ))]
            have hnext : dist2 o (keyCenter s.resolution (rayStep st).cur)
                ≤ (R + 2 * s.resolution) ^ 2 := by
              have hxb : (genVal s.resolution st.cur.x - o.x) ^ 2
                  + (genVal s.resolution st.cur.y - o.y) ^ 2
                  + (genVal s.resolution st.cur.z - o.z) ^ 2 ≤ R ^ 2 := by
                have h := hnear
                simp only [dist2, keyCenter] at h
                nlinarith [h]
              have hd := dist2_step_bound hR hres hxb
                hshift.1 hshift.2.1 hshift.2.2
              simp only [dist2, keyCenter]
              nlinarith [hd]
            exact ih (rayStep st) (by rw [rayStep_step]; exact h1)
              (by rw [rayStep_step]; exact h2)
              (by rw [rayStep_step]; exact h3) hnext k h

/-- C6 counterexample: with the spec's check order (occupancy before range),
a first occupied cell just beyond `maxRange` is still reported as a hit:
resolution 1, an occupied cell centered at x = 5/2, a cast from (1/2,1/2,1/2)
along +x with `maxRange = 3/2` hits at squared distance 4 > (3/2)^2. -/
theorem claim_C6_counterexample :
    castRay (updateNode (freshTree 1) ⟨5/2, 1/2, 1/2⟩ true).2
        ⟨1/2, 1/2, 1/2⟩ ⟨1, 0, 0⟩ true (3/2)
      = some ⟨5/2, 1/2, 1/2⟩ ∧
    (3/2 : ℚ) ^ 2 < dist2 ⟨1/2, 1/2, 1/2⟩ ⟨5/2, 1/2, 1/2⟩ := by
  constructor
  · decide
  · decide

/-- C6 (amended): a reported hit can exceed `maxRange = R` by at most one
cell step: the hit center is always within `R + 2*resolution` of the origin
(the cell from which the final step was taken had passed the range check);
and whenever the traveled distance exceeds `R` at a cell that is neither
occupied nor an aborting unknown cell, the cast fails at that cell. -/
theorem claim_C6_castRay_range {s : TreeState} {o d : Q3} {ign : Bool} {R : ℚ}
    (hR : 0 < R) (hres : 0 < s.resolution) :
    (∀ c, castRay s o d ign R = some c →
      dist2 o c ≤ (R + 2 * s.resolution) ^ 2) ∧
    (∀ f st, classifyVal (searchKey s st.cur) ≠ .occupied →
      ¬ (classifyVal (searchKey s st.cur) = .unknown ∧ ign = false) →
      R ^ 2 < dist2 o (keyCenter s.resolution st.cur) →
      castLoop s o ign R (f + 1) st = none) := by
  constructor
  · intro c h
    unfold castRay at h
    by_cases hd : d = ⟨0, 0, 0⟩
    · rw [if_pos hd] at h
      cases h
    · rw [if_neg hd] at h
      cases hok : genKeys s.resolution o with
      | none =>
        rw [hok] at h
        cases h
      | some ok =>
        rw [hok] at h
        obtain ⟨k, hk1, hk2⟩ := Option.map_eq_some'.mp h
        have hcomp := genKeys_components hok
        have hcx := abs_le.mp (genKey_center_close hres hcomp.1)
        have hcy := abs_le.mp (genKey_center_close hres hcomp.2.1)
        have hcz := abs_le.mp (genKey_center_close hres hcomp.2.2)
        have hinit : dist2 o (keyCenter s.resolution ok)
            ≤ (R + 2 * s.resolution) ^ 2 := by
          simp only [dist2, keyCenter]
          obtain ⟨ha1, ha2⟩ := hcx
          obtain ⟨hb1, hb2⟩ := hcy
          obtain ⟨hc1, hc2⟩ := hcz
          nlinarith [hR, hres]
        have hb := castLoop_some_bound hR hres rayFuel
          (ddaInit s.resolution o ok d)
          (axisInit_fst_abs s.resolution o.x ok.x d.x)
          (axisInit_fst_abs s.resolution o.y ok.y d.y)
          (axisInit_fst_abs s.resolution o.z ok.z d.z)
          hinit k hk1
        rw [← hk2]
        exact hb
  · intro f st hocc hunk hd2
    unfold castLoop
    rw [if_neg hocc, if_neg hunk, if_pos ⟨hR, hd2⟩]

theorem claim_C6_castRay_range_witness :
    (∀ c, castRay (updateNode (freshTree 1) ⟨5/2, 1/2, 1/2⟩ true).2
        ⟨1/2, 1/2, 1/2⟩ ⟨1, 0, 0⟩ true (3/2) = some c →
      dist2 ⟨1/2, 1/2, 1/2⟩ c
        ≤ (3/2 + 2 * (updateNode (freshTree 1)
            ⟨5/2, 1/2, 1/2⟩ true).2.resolution) ^ 2) ∧
    (∀ f st,
      classifyVal (searchKey (updateNode (freshTree 1)
        ⟨5/2, 1/2, 1/2⟩ true).2 st.cur) ≠ .occupied →
      ¬ (classifyVal (searchKey (updateNode (freshTree 1)
        ⟨5/2, 1/2, 1/2⟩ true).2 st.cur) = .unknown ∧ true = false) →
      (3/2 : ℚ) ^ 2 < dist2 ⟨1/2, 1/2, 1/2⟩
        (keyCenter (updateNode (freshTree 1)
          ⟨5/2, 1/2, 1/2⟩ true).2.resolution st.cur) →
      castLoop (updateNode (freshTree 1) ⟨5/2, 1/2, 1/2⟩ true).2
        ⟨1/2, 1/2, 1/2⟩ true (3/2) (f + 1) st = none) :=
  claim_C6_castRay_range (by norm_num) (by decide)

theorem calcMinMax_nodes (s : TreeState) : (calcMinMax s).nodes = s.nodes := by
  unfold calcMinMax
  split <;> rfl

theorem calcMinMax_tree_size (s : TreeState) :
    (calcMinMax s).tree_size = s.tree_size := by
  unfold calcMinMax
  split <;> rfl

theorem queryOp_frame (s : TreeState) (op : TreeOp) (h : isQueryOp op = true) :
    (applyOp s op).2.nodes = s.nodes ∧
    (applyOp s op).2.tree_size = s.tree_size := by
  cases op with
  | updateOp p occ => exact Bool.noConfusion h
  | insertOp o e => exact Bool.noConfusion h
  | setResolutionOp r => exact Bool.noConfusion h
  | searchOp p => exact ⟨rfl, rfl⟩
  | computeRayOp o e => exact ⟨rfl, rfl⟩
  | castRayOp o d ign R => exact ⟨rfl, rfl⟩
  | getOccupiedOp d => exact ⟨rfl, rfl⟩
  | getFreespaceOp d => exact ⟨rfl, rfl⟩
  | getLeafNodesOp d => exact ⟨rfl, rfl⟩
  | getVoxelsOp d => exact ⟨rfl, rfl⟩
  | sizeOp => exact ⟨rfl, rfl⟩
  | getMetricSizeOp => exact ⟨calcMinMax_nodes s, calcMinMax_tree_size s⟩
  | getMetricMinOp => exact ⟨calcMinMax_nodes s, calcMinMax_tree_size s⟩
  | getMetricMaxOp => exact ⟨calcMinMax_nodes s, calcMinMax_tree_size s⟩
  | memoryFullGridOp => exact ⟨calcMinMax_nodes s, calcMinMax_tree_size s⟩

/-- C9: the query operations — search, computeRay, castRay, getOccupied,
getFreespace, getLeafNodes, getVoxels, size, the metric queries and
memoryFullGrid — never create or destroy nodes and never modify any node's
evidence: the node store and the node count of the resulting state are those
of the input state (the metric queries refresh only the cached bounds, per
the header's non-const declarations). -/
theorem claim_C9_queries_no_mutation (s : TreeState) (op : TreeOp)
    (h : isQueryOp op = true) :
    (applyOp s op).2.nodes = s.nodes ∧
    (applyOp s op).2.tree_size = s.tree_size :=
  queryOp_frame s op h

theorem claim_C9_queries_no_mutation_witness :
    (applyOp (freshTree 1) (TreeOp.searchOp ⟨1/2, 1/2, 1/2⟩)).2.nodes
      = (freshTree 1).nodes ∧
    (applyOp (freshTree 1) (TreeOp.searchOp ⟨1/2, 1/2, 1/2⟩)).2.tree_size
      = (freshTree 1).tree_size :=
  claim_C9_queries_no_mutation (freshTree 1)
    (TreeOp.searchOp ⟨1/2, 1/2, 1/2⟩) (by decide)

/-- C10: the dense-grid comparison of `memoryFullGrid` charges per cell
exactly the size of the `GridData` record — which holds exactly one
single-precision (4-byte) float, the log-odds occupancy — and returns the
cell count of the bounding-volume grid times this fixed per-cell size. -/
theorem claim_C10_memoryFullGrid (s : TreeState) :
    memoryFullGrid s = gridCellCount s * sizeofGridData ∧
    sizeofGridData = 4 ∧
    (∀ g : GridData, g = ⟨g.log_odds_occupancy⟩) :=
  ⟨rfl, rfl, fun _ => rfl⟩

theorem lookupPath_eq_none_iff (m : NodeMap) (q : List ℕ) :
    lookupPath m q = none ↔ q ∉ m.map Prod.fst := by
  induction m with
  | nil => simp [lookupPath]
  | cons hd tl ih =>
    obtain ⟨p, w⟩ := hd
    unfold lookupPath
    by_cases h : p = q
    · subst h
      simp
    · rw [if_neg h, List.map_cons]
      constructor
      · intro hl hc
        rcases List.mem_cons.mp hc with rfl | hm
        · exact h rfl
        · exact (ih.mp hl) hm
      · intro hn
        exact ih.mpr (fun hm => hn (List.mem_cons_of_mem _ hm))

theorem lookup_isSome_of_mem {m : NodeMap} {e : List ℕ × ℤ} (he : e ∈ m) :
    (lookupPath m e.1).isSome := by
  induction m with
  | nil => cases he
  | cons hd tl ih =>
    obtain ⟨p, w⟩ := hd
    unfold lookupPath
    by_cases h : p = e.1
    · rw [if_pos h]
      rfl
    · rw [if_neg h]
      rcases List.mem_cons.mp he with rfl | hm
      · exact absurd rfl h
      · exact ih hm

theorem setPath_map_fst_present (m : NodeMap) {q : List ℕ} (v : ℤ)
    (h : (lookupPath m q).isSome) :
    (setPath m q v).map Prod.fst = m.map Prod.fst := by
  induction m with
  | nil =>
    simp [lookupPath] at h
  | cons hd tl ih =>
    obtain ⟨p, w⟩ := hd
    unfold setPath
    by_cases hpq : p = q
    · rw [if_pos hpq, List.map_cons, List.map_cons, hpq]
    · rw [if_neg hpq, List.map_cons, List.map_cons]
      unfold lookupPath at h
      rw [if_neg hpq] at h
      rw [ih h]

theorem setPath_map_fst_absent (m : NodeMap) (q : List ℕ) (v : ℤ)
    (h : lookupPath m q = none) :
    (setPath m q v).map Prod.fst = m.map Prod.fst ++ [q] := by
  induction m with
  | nil => simp [setPath]
  | cons hd tl ih =>
    obtain ⟨p, w⟩ := hd
    unfold setPath
    by_cases hpq : p = q
    · unfold lookupPath at h
      rw [if_pos hpq] at h
      cases h
    · rw [if_neg hpq, List.map_cons, List.map_cons]
      unfold lookupPath at h
      rw [if_neg hpq] at h
      rw [ih h]
      rfl

theorem ensurePath_size_len (s : TreeState) (q : List ℕ)
    (h : s.tree_size = s.nodes.length) :
    (ensurePath s q).tree_size = (ensurePath s q).nodes.length := by
  unfold ensurePath
  cases hl : lookupPath s.nodes q with
  | some v => exact h
  | none =>
    have hlen : (setPath s.nodes q 0).length = s.nodes.length + 1 := by
      have h2 := setPath_map_fst_absent s.nodes q 0 hl
      have h3 : ((setPath s.nodes q 0).map Prod.fst).length
          = (s.nodes.map Prod.fst ++ [q]).length := by rw [h2]
      simpa using h3
    simp only [hlen, h]

theorem ensurePath_nodup (s : TreeState) (q : List ℕ)
    (h : (s.nodes.map Prod.fst).Nodup) :
    ((ensurePath s q).nodes.map Prod.fst).Nodup := by
  unfold ensurePath
  cases hl : lookupPath s.nodes q with
  | some v => exact h
  | none =>
    simp only []
    rw [setPath_map_fst_absent s.nodes q 0 hl]
    rw [List.nodup_append]
    refine ⟨h, List.nodup_singleton q, ?_⟩
    intro a ha hb
    rw [List.mem_singleton] at hb
    subst hb
    exact (lookupPath_eq_none_iff s.nodes a).mp hl ha

theorem foldl_ensurePath_size_len (qs : List (List ℕ)) (s : TreeState)
    (h : s.tree_size = s.nodes.length) :
    (qs.foldl ensurePath s).tree_size = (qs.foldl ensurePath s).nodes.length := by
  induction qs generalizing s with
  | nil => exact h
  | cons a tl ih =>
    rw [List.foldl_cons]
    exact ih _ (ensurePath_size_len s a h)

theorem foldl_ensurePath_nodup (qs : List (List ℕ)) (s : TreeState)
    (h : (s.nodes.map Prod.fst).Nodup) :
    (((qs.foldl ensurePath s)).nodes.map Prod.fst).Nodup := by
  induction qs generalizing s with
  | nil => exact h
  | cons a tl ih =>
    rw [List.foldl_cons]
    exact ih _ (ensurePath_nodup s a h)

theorem lookupPath_setPath_isSome (m : NodeMap) (q : List ℕ) (v : ℤ)
    (q' : List ℕ) :
    (lookupPath (setPath m q v) q').isSome
      ↔ (q' = q ∨ (lookupPath m q').isSome) := by
  by_cases h : q' = q
  · subst h
    rw [lookupPath_setPath_self]
    simp
  · rw [lookupPath_setPath_ne _ _ h]
    simp [h]

theorem ensureKeyPath_prefixClosed (s : TreeState) (k : K3)
    (h : prefixClosed s.nodes) :
    prefixClosed (ensureKeyPath s k).nodes := by
  have hchar : ∀ r, (lookupPath (ensureKeyPath s k).nodes r).isSome
      ↔ ((lookupPath s.nodes r).isSome ∨ r ∈ keyPrefixes k) := by
    intro r
    rw [lookupPath_ensureKeyPath]
    by_cases h1 : (lookupPath s.nodes r).isSome
    · simp [h1]
    · by_cases h2 : r ∈ keyPrefixes k <;> simp [h1, h2]
  intro q hq i hi
  rw [List.mem_range] at hi
  rw [hchar] at hq ⊢
  rcases hq with hq | hq
  · exact Or.inl (h q hq i (List.mem_range.mpr hi))
  · unfold keyPrefixes at hq
    rw [List.mem_map] at hq
    obtain ⟨j, hj, rfl⟩ := hq
    rw [List.mem_range] at hj
    right
    rw [List.take_take]
    exact take_mem_keyPrefixes k (by unfold treeDepth at *; omega)

theorem integrateAt_prefixClosed (s : TreeState) (q : List ℕ) (b : Bool)
    (hq : (lookupPath s.nodes q).isSome) (h : prefixClosed s.nodes) :
    prefixClosed (integrateAt s q b).nodes := by
  intro r hr i hi
  rw [integrateAt_nodes] at hr ⊢
  rw [lookupPath_setPath_isSome] at hr ⊢
  rcases hr with rfl | hr
  · exact Or.inr (h r hq i hi)
  · exact Or.inr (h r hr i hi)

theorem integrateAt_len (s : TreeState) (q : List ℕ) (b : Bool)
    (h : (lookupPath s.nodes q).isSome) :
    (integrateAt s q b).nodes.length = s.nodes.length := by
  rw [integrateAt_nodes]
  have h1 := setPath_map_fst_present s.nodes
    ((lookupPath s.nodes q).getD 0 + if b then 1 else -1) h
  have h2 : ((setPath s.nodes q
      ((lookupPath s.nodes q).getD 0 + if b then 1 else -1)).map Prod.fst).length
      = (s.nodes.map Prod.fst).length := by rw [h1]
  simpa using h2

theorem integrateAt_nodup (s : TreeState) (q : List ℕ) (b : Bool)
    (hq : (lookupPath s.nodes q).isSome)
    (h : (s.nodes.map Prod.fst).Nodup) :
    ((integrateAt s q b).nodes.map Prod.fst).Nodup := by
  rw [integrateAt_nodes, setPath_map_fst_present s.nodes _ hq]
  exact h

theorem ensureKeyPath_full_isSome (s : TreeState) (k : K3) :
    (lookupPath (ensureKeyPath s k).nodes (fullPath k)).isSome := by
  rw [lookupPath_ensureKeyPath]
  by_cases h : (lookupPath s.nodes (fullPath k)).isSome
  · rw [if_pos h]
    exact h
  · rw [if_neg h, if_pos (fullPath_mem_keyPrefixes k)]
    rfl

set_option maxHeartbeats 1000000 in
theorem updateNodeKey_inv {s : TreeState} (k : K3) (b : Bool) (h : Inv s) :
    Inv (updateNodeKey s k b) := by
  obtain ⟨hsz, hnd, hpc⟩ := h
  unfold updateNodeKey
  have hfull := ensureKeyPath_full_isSome s k
  refine ⟨?_, ?_, ?_⟩
  · have h1 := foldl_ensurePath_size_len (keyPrefixes k) s hsz
    have h2 := integrateAt_len (ensureKeyPath s k) (fullPath k) b hfull
    rw [h2, integrateAt_tree_size]
    exact h1
  · exact integrateAt_nodup _ _ b hfull
      (foldl_ensurePath_nodup (keyPrefixes k) s hnd)
  · exact integrateAt_prefixClosed _ _ b hfull
      (ensureKeyPath_prefixClosed s k hpc)

theorem freshTree_inv (res : ℚ) : Inv (freshTree res) := by
  refine ⟨rfl, List.nodup_singleton _, ?_⟩
  intro q hq i hi
  unfold freshTree lookupPath at hq ⊢
  by_cases h : ([] : List ℕ) = q
  · subst h
    rw [List.take_nil]
    simp
  · rw [if_neg h] at hq
    cases hq

theorem updateNode_inv {s : TreeState} (p : Q3) (occ : Bool) (h : Inv s) :
    Inv (updateNode s p occ).2 := by
  unfold updateNode
  cases hk : genKeys s.resolution p with
  | none => exact h
  | some k => exact updateNodeKey_inv k occ h

theorem missFold_inv {s : TreeState} (l : List K3) (h : Inv s) :
    Inv (integrateMissOnRay s l) := by
  induction l generalizing s with
  | nil => exact h
  | cons a tl ih =>
    unfold integrateMissOnRay at ih ⊢
    rw [List.foldl_cons]
    exact ih (updateNodeKey_inv a false h)

theorem insertRay_inv {s : TreeState} (o e : Q3) (h : Inv s) :
    Inv (insertRay s o e).2 := by
  unfold insertRay
  cases h1 : genKeys s.resolution o with
  | none => cases h2 : genKeys s.resolution e <;> exact h
  | some ok =>
    cases h2 : genKeys s.resolution e with
    | none => exact h
    | some ek => exact updateNodeKey_inv ek true (missFold_inv _ h)

theorem reachable_inv {s : TreeState} (h : Reachable s) : Inv s := by
  induction h with
  | init res => exact freshTree_inv res
  | step s op hs ih =>
    cases op with
    | updateOp p occ => exact updateNode_inv p occ ih
    | insertOp o e => exact insertRay_inv o e ih
    | setResolutionOp r => exact freshTree_inv r
    | searchOp p => exact ih
    | computeRayOp o e => exact ih
    | castRayOp o d ign R => exact ih
    | getOccupiedOp d => exact ih
    | getFreespaceOp d => exact ih
    | getLeafNodesOp d => exact ih
    | getVoxelsOp d => exact ih
    | sizeOp => exact ih
    | getMetricSizeOp =>
      unfold Inv
      rw [show (applyOp s TreeOp.getMetricSizeOp).2 = calcMinMax s from rfl,
          calcMinMax_nodes, calcMinMax_tree_size]
      exact ih
    | getMetricMinOp =>
      unfold Inv
      rw [show (applyOp s TreeOp.getMetricMinOp).2 = calcMinMax s from rfl,
          calcMinMax_nodes, calcMinMax_tree_size]
      exact ih
    | getMetricMaxOp =>
      unfold Inv
      rw [show (applyOp s TreeOp.getMetricMaxOp).2 = calcMinMax s from rfl,
          calcMinMax_nodes, calcMinMax_tree_size]
      exact ih
    | memoryFullGridOp =>
      unfold Inv
      rw [show (applyOp s TreeOp.memoryFullGridOp).2 = calcMinMax s from rfl,
          calcMinMax_nodes, calcMinMax_tree_size]
      exact ih

theorem inv_size_eq_reachableCount {s : TreeState} (h : Inv s) :
    s.tree_size = reachableCount s := by
  obtain ⟨hsz, hnd, hpc⟩ := h
  unfold reachableCount
  rw [List.filter_eq_self.mpr ?_]
  · exact hsz
  · intro e he
    rw [List.all_eq_true]
    intro i hi
    exact hpc e.1 (lookup_isSome_of_mem he) i hi

/-- C7: in every tree state reachable by any operation sequence from
construction, `size()` (the `tree_size` field) equals the number of node
instances reachable from the root by child links, root included — which in
turn is the total number of stored nodes, so every node creation or
destruction is matched exactly by the counter. -/
theorem claim_C7_tree_size_reachable (s : TreeState) (h : Reachable s) :
    s.tree_size = reachableCount s ∧ s.tree_size = s.nodes.length :=
  ⟨inv_size_eq_reachableCount (reachable_inv h), (reachable_inv h).1⟩

theorem claim_C7_tree_size_reachable_witness :
    (applyOp (freshTree 1) (TreeOp.updateOp ⟨1/2, 1/2, 1/2⟩ true)).2.tree_size
      = reachableCount
          (applyOp (freshTree 1) (TreeOp.updateOp ⟨1/2, 1/2, 1/2⟩ true)).2 ∧
    (applyOp (freshTree 1) (TreeOp.updateOp ⟨1/2, 1/2, 1/2⟩ true)).2.tree_size
      = (applyOp (freshTree 1)
          (TreeOp.updateOp ⟨1/2, 1/2, 1/2⟩ true)).2.nodes.length :=
  claim_C7_tree_size_reachable _
    (Reachable.step (freshTree 1) (TreeOp.updateOp ⟨1/2, 1/2, 1/2⟩ true)
      (Reachable.init 1))

end Octomap
